import Mathlib

/-!
# A Bloom filter over an arbitrary-precision integer

Shallow embedding of `bloomfilter/bloomfilter.go`: the filter record, its
constructor, index derivation (`hashAt`), insertion (`Add`), membership query
(`Contains`) and persistence (`Save` / `LoadBloom`); and of the API-key lookup
`binarySearch` of `main.go`.

Conventions of the embedding.

* Go's `uint` is the 64-bit unsigned integer of a 64-bit target: a value is a
  natural number, and every operation that can leave the range is reduced
  modulo `2 ^ 64` explicitly. `int(u)` is the two's complement reading.
* A run-time panic (index out of range, division by zero, nil dereference,
  negative bit index) is the result `none`.
* `[32]byte` is a function `Fin 32 → Fin 256`.
* `*big.Int` is `Option Int`: `none` is the nil pointer, `some z` an allocated
  integer of value `z`. `SetBit` and `Bit` follow the two's complement
  semantics documented by `math/big`.
* `sha256.Sum256([]byte(item))` is a parameter `Sum256 : String → Digest`;
  everything proved holds for every digest function.
* `Save` and `LoadBloom` take the codec and the file system as arguments (`Gob`,
  `FileSystem`); `gobCodec` is `encoding/gob` on `BloomFilter` values, modelled
  on the wire format of its package documentation.
-/

namespace Bloomfilter

/-! ## Machine integers -/

/-- Number of values of Go's `uint` on a 64-bit target. -/
def uintRange : Nat := 2 ^ 64

/-- Wrap-around of an arithmetic result to `uint`. -/
def wrapUint (n : Nat) : Nat := n % uintRange

/-- The conversion `int(u)` of a `uint` to the signed type of the same width. -/
def toInt (u : Nat) : Int :=
  if u % uintRange < 2 ^ 63 then ((u % uintRange : Nat) : Int)
  else ((u % uintRange : Nat) : Int) - (uintRange : Int)

/-! ## Library types -/

/-- The array type `[32]byte` returned by `sha256.Sum256`. -/
abbrev Digest : Type := Fin 32 → Fin 256

/-- The indexing expression `hash[j]` on a `[32]byte`, converted with `uint(...)`:
an index outside the array is a run-time panic. -/
def byteAt (hash : Digest) (j : Nat) : Option Nat :=
  if h : j < 32 then some (hash ⟨j, h⟩).val else none

/-- The method `(*big.Int).SetBit(x, i, b)`: `x` with bit `i` set to `b`, that is
`x | (1 << i)` for `b = 1` and `x &^ (1 << i)` for `b = 0`; a negative index
or another value of `b` panics. -/
def SetBit (x : Int) (i : Int) (b : Nat) : Option Int :=
  if i < 0 then none
  else if b = 1 then some (Int.lor x (Int.ofNat (1 <<< i.toNat)))
  else if b = 0 then some (Int.ldiff x (Int.ofNat (1 <<< i.toNat)))
  else none

/-- The method `(*big.Int).Bit(i)`: the value of bit `i` of `x`; a negative
index panics. -/
def Bit (x : Int) (i : Int) : Option Nat :=
  if i < 0 then none
  else some (if Int.testBit x i.toNat then 1 else 0)

/-! ## The filter -/

/-- The struct `BloomFilter`: `Bits *big.Int`, `Size uint`, `K uint`. -/
structure BloomFilter where
  Bits : Option Int
  Size : Nat
  K : Nat
  deriving DecidableEq, Repr

/-- The constructor `NewBloom(size, k)`: `Bits` is `big.NewInt(0)`. -/
def NewBloom (size k : Nat) : BloomFilter :=
  ⟨some 0, size, k⟩

/-- The method `hashAt(hash, i)`: the four bytes of the digest from offset
`(i * 4) % 28`, joined big-endian, reduced modulo `bf.Size`. -/
def hashAt (bf : BloomFilter) (hash : Digest) (i : Nat) : Option Nat := do
  let start := wrapUint (i * 4) % 28
  let b0 ← byteAt hash start
  let b1 ← byteAt hash (wrapUint (start + 1))
  let b2 ← byteAt hash (wrapUint (start + 2))
  let b3 ← byteAt hash (wrapUint (start + 3))
  let val := wrapUint (b0 <<< 24) ||| wrapUint (b1 <<< 16) ||| wrapUint (b2 <<< 8) ||| b3
  if bf.Size = 0 then none else some (val % bf.Size)

/-- One iteration of the loop of `Add`: derive the position for index `i` and
set that bit in place. -/
def addStep (hash : Digest) (bf : BloomFilter) (i : Nat) : Option BloomFilter := do
  let idx ← hashAt bf hash i
  let bits ← bf.Bits
  let bits1 ← SetBit bits (toInt idx) 1
  some ⟨some bits1, bf.Size, bf.K⟩

/-- The method `Add(item)`: the loop `for i := uint(0); i < bf.K; i++`. -/
def Add (Sum256 : String → Digest) (bf : BloomFilter) (item : String) :
    Option BloomFilter :=
  (List.range bf.K).foldlM (addStep (Sum256 item)) bf

/-- The loop of `Contains` over the remaining indices: `false` at the first
unset bit, `true` when the indices are exhausted. -/
def containsLoop (bf : BloomFilter) (hash : Digest) : List Nat → Option Bool
  | [] => some true
  | i :: rest => do
    let idx ← hashAt bf hash i
    let bits ← bf.Bits
    let b ← Bit bits (toInt idx)
    if b = 0 then some false else containsLoop bf hash rest

/-- The method `Contains(item)`, returning the answer together with the filter
as the call leaves it. -/
def Contains (Sum256 : String → Digest) (bf : BloomFilter) (item : String) :
    Option (Bool × BloomFilter) :=
  (containsLoop bf (Sum256 item) (List.range bf.K)).map (fun r => (r, bf))

/-- A run of `Add` calls on the same instance, one per element of `items`. -/
def addAll (Sum256 : String → Digest) (bf : BloomFilter) (items : List String) :
    Option BloomFilter :=
  items.foldlM (Add Sum256) bf

/-! ## Persistence -/

/-- The values of Go's `error` that `Save` and `LoadBloom` can return: the
`*os.PathError` of `os.Create` / `os.Open`, and an error of the gob codec. -/
inductive Error where
  | pathError : Error
  | codecError : Nat → Error
  deriving DecidableEq, Repr

/-- The package `encoding/gob` as `Save` and `LoadBloom` use it.
`Encode bf` is `gob.NewEncoder(f).Encode(bf)`: the bytes written to `f` and the
error returned. `Decode data target` is `gob.NewDecoder(f).Decode(&bf)` on a
file holding `data`: the value of `bf` after the call (fields decoded before a
failure stay assigned) and the error returned. -/
structure Gob where
  Encode : BloomFilter → List Nat × Option Error
  Decode : List Nat → BloomFilter → BloomFilter × Option Error

/-- The file system: the content of each path that can be opened, and whether
`os.Create` succeeds on a path. -/
structure FileSystem where
  content : String → Option (List Nat)
  creatable : String → Bool

/-- The zero value of the struct, as `var bf BloomFilter` declares it. -/
def zeroBloomFilter : BloomFilter := ⟨none, 0, 0⟩

/-- The method `Save(path)`: `os.Create` truncates or creates the file, then the
encoder writes the filter to it; the result is the file system left behind and
the error returned. -/
def Save (gob : Gob) (fs : FileSystem) (bf : BloomFilter) (path : String) :
    FileSystem × Option Error :=
  if fs.creatable path then
    (⟨fun p => if p = path then some (gob.Encode bf).1 else fs.content p, fs.creatable⟩,
      (gob.Encode bf).2)
  else (fs, some Error.pathError)

/-- The function `LoadBloom(path)`: `nil` and the error when `os.Open` fails,
otherwise `&bf` and the error of `Decode(&bf)`. -/
def LoadBloom (gob : Gob) (fs : FileSystem) (path : String) :
    Option BloomFilter × Option Error :=
  match fs.content path with
  | none => (none, some Error.pathError)
  | some data => (some (gob.Decode data zeroBloomFilter).1, (gob.Decode data zeroBloomFilter).2)

/-! ## The wire format of `encoding/gob`

Modelled on the package documentation of `encoding/gob` and on `math/big`'s
`GobEncode` / `GobDecode`. A stream is a list of bytes (numbers below 256).
What the stream carries about the type `BloomFilter` alone, the descriptor
messages ahead of the first value and the type id that opens the value
message, is the parameter `GobTypeInfo`; the value itself is encoded and
decoded as documented. -/

/-- The type-dependent bytes of a gob stream of `BloomFilter` values: the type
descriptor messages sent ahead of the first value, and the encoded type id that
opens the value message. -/
structure GobTypeInfo where
  descriptors : List Nat
  typeId : List Nat

/-- The limit `tooBig` on the length of a message, on a 64-bit target. -/
def tooBig : Nat := 2 ^ 33

/-- The bytes of `n`, high byte first, without leading zero bytes (none for `0`); the
first argument bounds the number of bytes. -/
def bytesBE : Nat → Nat → List Nat
  | 0, _ => []
  | fuel + 1, n => if n = 0 then [] else bytesBE fuel (n / 256) ++ [n % 256]

/-- The minimal big-endian bytes of `n`; `n` bytes are more than enough. -/
def natBytes (n : Nat) : List Nat := bytesBE n n

/-- The number with the big-endian bytes `bs`: the loop `x = x<<8 | b`. -/
def fromBytes (bs : List Nat) : Nat := bs.foldl (fun acc b => acc * 256 + b) 0

/-- An unsigned integer on the wire: one byte if below 128, otherwise the negated
byte count followed by the minimal big-endian bytes. -/
def encodeUint (x : Nat) : List Nat :=
  if x < 128 then [x] else (256 - (natBytes x).length) :: natBytes x

/-- Reading an unsigned integer: the value and the rest of the buffer; an empty buffer,
a byte count above 8 or beyond the buffer is an error. -/
def decodeUint (buf : List Nat) : Option (Nat × List Nat) :=
  match buf with
  | [] => none
  | b :: rest =>
    if b < 128 then some (b, rest)
    else if 8 < 256 - b then none
    else if rest.length < 256 - b then none
    else some (fromBytes (rest.take (256 - b)), rest.drop (256 - b))

/-- The method `(*big.Int).GobEncode`: a byte holding the version (1) and the sign, then
the big-endian bytes of the magnitude. -/
def intGobEncode (z : Int) : List Nat :=
  (2 + (if z < 0 then 1 else 0)) :: natBytes z.natAbs

/-- The method `(*big.Int).GobDecode`: an empty buffer is zero, another version than 1
is an error. -/
def intGobDecode (buf : List Nat) : Option Int :=
  match buf with
  | [] => some 0
  | b :: rest =>
    if b / 2 = 1 then
      some (if b % 2 = 1 then -((fromBytes rest : Nat) : Int) else ((fromBytes rest : Nat) : Int))
    else none

/-- The fields of a filter on the wire: for every field that is not the zero value of
its type, the distance from the previous field number sent (starting from -1) and
the value, `Bits` as the length-prefixed bytes of `GobEncode`; then the terminator. -/
def encodeFields (bf : BloomFilter) : List Nat :=
  (match bf.Bits with
    | none => []
    | some z => encodeUint 1 ++ encodeUint (intGobEncode z).length ++ intGobEncode z)
  ++ (if bf.Size = 0 then []
      else encodeUint (match bf.Bits with | none => 2 | some _ => 1) ++ encodeUint bf.Size)
  ++ (if bf.K = 0 then []
      else encodeUint (if bf.Size = 0 then (match bf.Bits with | none => 3 | some _ => 2) else 1)
        ++ encodeUint bf.K)
  ++ encodeUint 0

/-- The call `gob.NewEncoder(f).Encode(bf)` on a fresh encoder: the descriptors, then the
value message (type id and fields) behind its length; a message of `tooBig` bytes
or more is refused after the descriptors are written. -/
def gobEncode (info : GobTypeInfo) (bf : BloomFilter) : List Nat × Option Error :=
  if (info.typeId ++ encodeFields bf).length < tooBig then
    (info.descriptors ++ encodeUint (info.typeId ++ encodeFields bf).length
      ++ (info.typeId ++ encodeFields bf), none)
  else (info.descriptors, some (Error.codecError 5))

/-- The buffer behind the expected bytes `h`, if it starts with them. -/
def dropHeader (h buf : List Nat) : Option (List Nat) :=
  if buf.take h.length = h then some (buf.drop h.length) else none

/-- The loop of `decodeStruct` on the three fields of `BloomFilter`. `next` is the last
field number read plus one. An empty buffer or a zero distance ends the struct; a
field number beyond the last field is an error; a field is assigned as soon as it
is read, and `Bits` is allocated before its bytes are read. At most three fields
pass the range check, so four iterations are enough. -/
def decodeFields : Nat → Nat → List Nat → BloomFilter → BloomFilter × Option Error
  | 0, _, _, target => (target, some (Error.codecError 3))
  | fuel + 1, next, buf, target =>
    match buf with
    | [] => (target, none)
    | _ :: _ =>
      match decodeUint buf with
      | none => (target, some (Error.codecError 2))
      | some (delta, rest) =>
        if delta = 0 then (target, none)
        else if 3 < next + delta then (target, some (Error.codecError 3))
        else if next + delta = 1 then
          match decodeUint rest with
          | none => (⟨some (target.Bits.getD 0), target.Size, target.K⟩, some (Error.codecError 2))
          | some (n, data) =>
            if tooBig ≤ n ∨ data.length < n then
              (⟨some (target.Bits.getD 0), target.Size, target.K⟩, some (Error.codecError 2))
            else
              match intGobDecode (data.take n) with
              | none =>
                (⟨some (target.Bits.getD 0), target.Size, target.K⟩, some (Error.codecError 4))
              | some z => decodeFields fuel 1 (data.drop n) ⟨some z, target.Size, target.K⟩
        else if next + delta = 2 then
          match decodeUint rest with
          | none => (target, some (Error.codecError 2))
          | some (x, data) => decodeFields fuel 2 data ⟨target.Bits, x, target.K⟩
        else
          match decodeUint rest with
          | none => (target, some (Error.codecError 2))
          | some (x, data) => decodeFields fuel 3 data ⟨target.Bits, target.Size, x⟩

/-- The call `gob.NewDecoder(f).Decode(&bf)` on a file holding `data`: the descriptors, the
length of the value message, the whole message (a file that ends before it is an
error, with nothing assigned), the type id, then the fields. The descriptors and
the type id are compared with the bytes the encoder writes for `BloomFilter`; the
library parses them and also accepts streams of compatible types, which `Save`
never writes. -/
def gobDecode (info : GobTypeInfo) (data : List Nat) (target : BloomFilter) :
    BloomFilter × Option Error :=
  match dropHeader info.descriptors data with
  | none => (target, some (Error.codecError 0))
  | some d1 =>
    match decodeUint d1 with
    | none => (target, some (Error.codecError 1))
    | some (n, d2) =>
      if tooBig ≤ n ∨ d2.length < n then (target, some (Error.codecError 1))
      else
        match dropHeader info.typeId (d2.take n) with
        | none => (target, some (Error.codecError 0))
        | some body => decodeFields 4 0 body target

/-- The gob codec for `BloomFilter` values. -/
def gobCodec (info : GobTypeInfo) : Gob := ⟨gobEncode info, gobDecode info⟩

/-- A sample of the type-dependent bytes: no descriptor bytes, and `ff 82` (65) as the
type id. -/
def sampleTypeInfo : GobTypeInfo := ⟨[], [255, 130]⟩

/-- A file system with no file, in which only the path "filter.bloom" can be created. -/
def sampleFS : FileSystem := ⟨fun _ => none, fun p => p = "filter.bloom"⟩

/-- A file system whose only file, "broken.bloom", holds the first seven bytes of the
stream of the filter with bits `13`, 100 bits and `k = 3`: it ends inside the value
message. -/
def brokenFS : FileSystem :=
  ⟨fun p => if p = "broken.bloom" then some [11, 255, 130, 1, 2, 2, 13] else none,
    fun _ => false⟩

/-- A digest function used to run the definitions on concrete inputs: byte `j`
is derived from the length of the item and the code of its first character. -/
def sampleSum256 (item : String) : Digest :=
  fun j => ⟨(item.length * 31 + (item.get 0).toNat * 7 + j.val * j.val * 5 + j.val * 53 + 11) % 256,
    Nat.mod_lt _ (by decide)⟩

/-- The digest whose byte `j` is `j` (bytes `0x00, 0x01, ..., 0x1f`). -/
def countingDigest : Digest :=
  fun j => ⟨j.val, Nat.lt_trans j.isLt (by decide)⟩

/-- The digest `00 01 ... 1b ff ff ff ff`: `countingDigest` with its last four bytes
replaced. -/
def alteredTailDigest : Digest :=
  fun j => if h : j.val < 28 then ⟨j.val, Nat.lt_trans h (by decide)⟩ else ⟨255, by decide⟩

/-! ## Specification-side notions -/

/-- The offset of the window read for index `i`, as `hashAt` computes it. -/
def windowStart (i : Nat) : Nat := wrapUint (i * 4) % 28

/-- Byte `j` of a digest as a number, for `j < 32` (and `0` beyond). -/
def digestByte (hash : Digest) (j : Nat) : Nat :=
  if h : j < 32 then (hash ⟨j, h⟩).val else 0

/-- The big-endian unsigned 32-bit value of the four digest bytes from offset `s`. -/
def bigEndian32 (hash : Digest) (s : Nat) : Nat :=
  digestByte hash s * 2 ^ 24 + digestByte hash (s + 1) * 2 ^ 16
    + digestByte hash (s + 2) * 2 ^ 8 + digestByte hash (s + 3)

/-- The bit position derived for index `i` in a filter of `size` bits. -/
def position (size : Nat) (hash : Digest) (i : Nat) : Nat :=
  bigEndian32 hash (windowStart i) % size

/-- The integer `bits` with every position of `ps` set. -/
def setAll (bits : Int) (ps : List Nat) : Int :=
  ps.foldl (fun b p => Int.lor b (Int.ofNat (1 <<< p))) bits

/-- The positions derived for the items of a run of `Add` calls, in order. -/
def allPositions (Sum256 : String → Digest) (size k : Nat) : List String → List Nat
  | [] => []
  | y :: rest => (List.range k).map (position size (Sum256 y)) ++ allPositions Sum256 size k rest

end Bloomfilter

/-! ## Package `main`: the API-key lookup

Go compares strings byte by byte, which is a linear order; the key type `α` below
is any linearly ordered type. A slice is a list, and an index outside it is a
run-time panic (`none`). -/

namespace Main

/-- The loop of `sort.Search`: `for i < j { h := int(uint(i+j) >> 1); if !f(h)
{ i = h + 1 } else { j = h } }; return i`. The first argument bounds the number
of iterations; running out of it is `none`. -/
def searchLoop (f : Nat → Option Bool) : Nat → Nat → Nat → Option Nat
  | 0, i, j => if i < j then none else some i
  | fuel + 1, i, j =>
    if i < j then do
      let h := Bloomfilter.wrapUint (i + j) >>> 1
      let b ← f h
      if b then searchLoop f fuel i h else searchLoop f fuel (h + 1) j
    else some i

/-- The library function `sort.Search(n, f)`, started with `i, j := 0, n`; the
interval shrinks at every iteration, so `n` iterations are enough. -/
def Search (n : Nat) (f : Nat → Option Bool) : Option Nat :=
  searchLoop f n 0 n

/-- The library function `sort.SearchStrings(a, x)`:
`Search(len(a), func(i int) bool { return a[i] >= x })`. -/
def SearchStrings {α : Type} [LinearOrder α] (a : List α) (x : α) : Option Nat :=
  Search a.length (fun i => (a[i]?).map (fun s => decide (x ≤ s)))

/-- The function `binarySearch(key, sortedKeys)`:
`i := sort.SearchStrings(sortedKeys, key)`, then
`i < len(sortedKeys) && sortedKeys[i] == key`. -/
def binarySearch {α : Type} [LinearOrder α] (key : α) (sortedKeys : List α) : Option Bool := do
  let i ← SearchStrings sortedKeys key
  if i < sortedKeys.length then
    let s ← sortedKeys[i]?
    some (decide (s = key))
  else some false

/-- Three keys in ascending order, as byte strings: "k1", "k2", "k7". -/
def sampleKeys : List (List Nat) := [[107, 49], [107, 50], [107, 55]]

/-- The same keys out of order: "k2", "k1", "k7". -/
def unsortedKeys : List (List Nat) := [[107, 50], [107, 49], [107, 55]]

end Main

namespace Bloomfilter

/-! ## Lemmas on the embedding, and the claims -/

theorem windowStart_lt (i : Nat) : windowStart i < 28 := by
  unfold windowStart
  exact Nat.mod_lt _ (by decide)

theorem digestByte_lt (hash : Digest) (j : Nat) : digestByte hash j < 256 := by
  unfold digestByte
  split
  · exact (hash _).isLt
  · decide

theorem byteAt_eq (hash : Digest) (j : Nat) (h : j < 32) :
    byteAt hash j = some (digestByte hash j) := by
  simp [byteAt, digestByte, h]

theorem wrapUint_of_lt (n : Nat) (h : n < 2 ^ 64) : wrapUint n = n := by
  unfold wrapUint uintRange
  exact Nat.mod_eq_of_lt h

theorem joinBytes_eq (b0 b1 b2 b3 : Nat) (h0 : b0 < 256) (h1 : b1 < 256) (h2 : b2 < 256)
    (h3 : b3 < 256) :
    wrapUint (b0 <<< 24) ||| wrapUint (b1 <<< 16) ||| wrapUint (b2 <<< 8) ||| b3
      = b0 * 2 ^ 24 + b1 * 2 ^ 16 + b2 * 2 ^ 8 + b3 := by
  have e0 : wrapUint (b0 <<< 24) = 2 ^ 24 * b0 := by
    rw [Nat.shiftLeft_eq, wrapUint_of_lt _ (by omega)]; omega
  have e1 : wrapUint (b1 <<< 16) = 2 ^ 16 * b1 := by
    rw [Nat.shiftLeft_eq, wrapUint_of_lt _ (by omega)]; omega
  have e2 : wrapUint (b2 <<< 8) = 2 ^ 8 * b2 := by
    rw [Nat.shiftLeft_eq, wrapUint_of_lt _ (by omega)]; omega
  rw [e0, e1, e2, Nat.lor_assoc, Nat.lor_assoc]
  rw [← Nat.mul_add_lt_is_or (by omega : b3 < 2 ^ 8) b2]
  rw [← Nat.mul_add_lt_is_or (by omega : 2 ^ 8 * b2 + b3 < 2 ^ 16) b1]
  rw [← Nat.mul_add_lt_is_or (by omega : 2 ^ 16 * b1 + (2 ^ 8 * b2 + b3) < 2 ^ 24) b0]
  omega

theorem bigEndian32_lt (hash : Digest) (s : Nat) : bigEndian32 hash s < 2 ^ 32 := by
  unfold bigEndian32
  have h0 := digestByte_lt hash s
  have h1 := digestByte_lt hash (s + 1)
  have h2 := digestByte_lt hash (s + 2)
  have h3 := digestByte_lt hash (s + 3)
  omega

theorem hashAt_eq (bf : BloomFilter) (hash : Digest) (i : Nat) (hsize : 0 < bf.Size) :
    hashAt bf hash i = some (position bf.Size hash i) := by
  have hs := windowStart_lt i
  have w1 : wrapUint (windowStart i + 1) = windowStart i + 1 := wrapUint_of_lt _ (by omega)
  have w2 : wrapUint (windowStart i + 2) = windowStart i + 2 := wrapUint_of_lt _ (by omega)
  have w3 : wrapUint (windowStart i + 3) = windowStart i + 3 := wrapUint_of_lt _ (by omega)
  have hne : bf.Size ≠ 0 := by omega
  unfold hashAt
  show (do
    let b0 ← byteAt hash (windowStart i)
    let b1 ← byteAt hash (wrapUint (windowStart i + 1))
    let b2 ← byteAt hash (wrapUint (windowStart i + 2))
    let b3 ← byteAt hash (wrapUint (windowStart i + 3))
    if bf.Size = 0 then none
    else some ((wrapUint (b0 <<< 24) ||| wrapUint (b1 <<< 16) ||| wrapUint (b2 <<< 8) ||| b3)
      % bf.Size)) = _
  rw [w1, w2, w3, byteAt_eq _ _ (by omega), byteAt_eq _ _ (by omega), byteAt_eq _ _ (by omega),
    byteAt_eq _ _ (by omega)]
  simp only [Option.bind_eq_bind, Option.some_bind, hne, if_false]
  rw [joinBytes_eq _ _ _ _ (digestByte_lt _ _) (digestByte_lt _ _) (digestByte_lt _ _)
    (digestByte_lt _ _)]
  rfl

theorem position_lt (size : Nat) (hash : Digest) (i : Nat) : position size hash i < 2 ^ 32 := by
  unfold position
  exact Nat.lt_of_le_of_lt (Nat.mod_le _ _) (bigEndian32_lt hash _)

theorem toInt_of_lt (u : Nat) (h : u < 2 ^ 63) : toInt u = (u : Int) := by
  have h1 : u % uintRange = u := Nat.mod_eq_of_lt (by unfold uintRange; omega)
  unfold toInt
  rw [h1, if_pos h]

theorem SetBit_one (x : Int) (p : Nat) (h : p < 2 ^ 63) :
    SetBit x (toInt p) 1 = some (Int.lor x (Int.ofNat (1 <<< p))) := by
  rw [toInt_of_lt p h]
  unfold SetBit
  have hn : ¬ ((p : Int) < 0) := by omega
  rw [if_neg hn, if_pos rfl, Int.toNat_natCast]

theorem Bit_eq (x : Int) (p : Nat) (h : p < 2 ^ 63) :
    Bit x (toInt p) = some (if Int.testBit x p then 1 else 0) := by
  rw [toInt_of_lt p h]
  unfold Bit
  have hn : ¬ ((p : Int) < 0) := by omega
  rw [if_neg hn, Int.toNat_natCast]

theorem addStep_eq (hash : Digest) (bits : Int) (size k i : Nat) (hsize : 0 < size) :
    addStep hash ⟨some bits, size, k⟩ i
      = some ⟨some (Int.lor bits (Int.ofNat (1 <<< position size hash i))), size, k⟩ := by
  have hp := position_lt size hash i
  unfold addStep
  rw [hashAt_eq _ _ _ hsize]
  simp only [Option.bind_eq_bind, Option.some_bind]
  rw [SetBit_one _ _ (by omega)]
  rfl

theorem foldlM_addStep (hash : Digest) (size k : Nat) (hsize : 0 < size) (l : List Nat) :
    ∀ bits : Int, l.foldlM (addStep hash) ⟨some bits, size, k⟩
      = some ⟨some (setAll bits (l.map (position size hash))), size, k⟩ := by
  induction l with
  | nil => intro bits; rfl
  | cons i rest ih =>
    intro bits
    rw [List.foldlM_cons, addStep_eq hash bits size k i hsize]
    exact ih _

theorem Add_eq (Sum256 : String → Digest) (bits : Int) (size k : Nat) (item : String)
    (hsize : 0 < size) :
    Add Sum256 ⟨some bits, size, k⟩ item
      = some ⟨some (setAll bits ((List.range k).map (position size (Sum256 item)))), size, k⟩ :=
  foldlM_addStep (Sum256 item) size k hsize (List.range k) bits

theorem testBit_ofNat_one_shiftLeft (p q : Nat) :
    Int.testBit (Int.ofNat (1 <<< p)) q = decide (p = q) := by
  show Nat.testBit (1 <<< p) q = decide (p = q)
  rw [Nat.shiftLeft_eq, Nat.one_mul, Nat.testBit_two_pow]

theorem testBit_setAll (ps : List Nat) :
    ∀ (bits : Int) (q : Nat),
      Int.testBit (setAll bits ps) q = (Int.testBit bits q || decide (q ∈ ps)) := by
  induction ps with
  | nil => intro bits q; simp [setAll]
  | cons p rest ih =>
    intro bits q
    have e : setAll bits (p :: rest) = setAll (Int.lor bits (Int.ofNat (1 <<< p))) rest := rfl
    rw [e, ih, Int.testBit_lor, testBit_ofNat_one_shiftLeft]
    by_cases hq : p = q
    · subst hq; simp
    · have hq2 : ¬ q = p := fun h => hq h.symm
      simp [hq, hq2]

theorem int_eq_of_testBit_eq (m n : Int) (h : ∀ q, Int.testBit m q = Int.testBit n q) :
    m = n := by
  cases m with
  | ofNat a =>
    cases n with
    | ofNat b =>
      have : a = b := Nat.eq_of_testBit_eq (fun q => h q)
      rw [this]
    | negSucc b =>
      exfalso
      have hq := h (a + b)
      have ha : Nat.testBit a (a + b) = false :=
        Nat.testBit_lt_two_pow (Nat.lt_of_lt_of_le (Nat.lt_two_pow a)
          (Nat.pow_le_pow_right (by decide) (Nat.le_add_right a b)))
      have hb : Nat.testBit b (a + b) = false :=
        Nat.testBit_lt_two_pow (Nat.lt_of_lt_of_le (Nat.lt_two_pow b)
          (Nat.pow_le_pow_right (by decide) (Nat.le_add_left b a)))
      have e1 : Int.testBit (Int.ofNat a) (a + b) = Nat.testBit a (a + b) := rfl
      have e2 : Int.testBit (Int.negSucc b) (a + b) = !(Nat.testBit b (a + b)) := rfl
      rw [e1, e2, ha, hb] at hq
      exact Bool.noConfusion hq
  | negSucc a =>
    cases n with
    | ofNat b =>
      exfalso
      have hq := h (a + b)
      have ha : Nat.testBit a (a + b) = false :=
        Nat.testBit_lt_two_pow (Nat.lt_of_lt_of_le (Nat.lt_two_pow a)
          (Nat.pow_le_pow_right (by decide) (Nat.le_add_right a b)))
      have hb : Nat.testBit b (a + b) = false :=
        Nat.testBit_lt_two_pow (Nat.lt_of_lt_of_le (Nat.lt_two_pow b)
          (Nat.pow_le_pow_right (by decide) (Nat.le_add_left b a)))
      have e1 : Int.testBit (Int.negSucc a) (a + b) = !(Nat.testBit a (a + b)) := rfl
      have e2 : Int.testBit (Int.ofNat b) (a + b) = Nat.testBit b (a + b) := rfl
      rw [e1, e2, ha, hb] at hq
      exact Bool.noConfusion hq
    | negSucc b =>
      have : a = b := Nat.eq_of_testBit_eq (fun q => by
        have hq := h q
        have e1 : Int.testBit (Int.negSucc a) q = !(Nat.testBit a q) := rfl
        have e2 : Int.testBit (Int.negSucc b) q = !(Nat.testBit b q) := rfl
        rw [e1, e2] at hq
        cases hx : Nat.testBit a q <;> cases hy : Nat.testBit b q <;> simp_all)
      rw [this]

theorem containsLoop_eq (hash : Digest) (bits : Int) (size k : Nat) (hsize : 0 < size)
    (l : List Nat) :
    containsLoop ⟨some bits, size, k⟩ hash l
      = some (l.all (fun i => Int.testBit bits (position size hash i))) := by
  induction l with
  | nil => rfl
  | cons i rest ih =>
    have hp := position_lt size hash i
    unfold containsLoop
    rw [hashAt_eq _ _ _ hsize]
    simp only [Option.bind_eq_bind, Option.some_bind]
    rw [Bit_eq _ _ (by omega), Option.some_bind, ih]
    cases hb : Int.testBit bits (position size hash i) <;> simp [hb]

theorem Contains_eq (Sum256 : String → Digest) (bits : Int) (size k : Nat) (item : String)
    (hsize : 0 < size) :
    Contains Sum256 ⟨some bits, size, k⟩ item
      = some ((List.range k).all (fun i => Int.testBit bits (position size (Sum256 item) i)),
          ⟨some bits, size, k⟩) := by
  unfold Contains
  rw [containsLoop_eq _ _ _ _ hsize]
  rfl

theorem addStep_frame (hash : Digest) (bf bf1 : BloomFilter) (i : Nat)
    (h : addStep hash bf i = some bf1) : bf1.Size = bf.Size ∧ bf1.K = bf.K := by
  unfold addStep at h
  cases h1 : hashAt bf hash i with
  | none => rw [h1] at h; exact Option.noConfusion h
  | some idx =>
    cases h2 : bf.Bits with
    | none => rw [h1, h2] at h; exact Option.noConfusion h
    | some bits =>
      cases h3 : SetBit bits (toInt idx) 1 with
      | none => rw [h1, h2] at h; simp [h3] at h
      | some bits1 =>
        rw [h1, h2] at h
        simp [h3] at h
        rw [← h]
        exact ⟨rfl, rfl⟩

theorem foldlM_addStep_frame (hash : Digest) (l : List Nat) :
    ∀ bf bf1 : BloomFilter, l.foldlM (addStep hash) bf = some bf1 →
      bf1.Size = bf.Size ∧ bf1.K = bf.K := by
  induction l with
  | nil =>
    intro bf bf1 h
    have e : bf = bf1 := Option.some.inj h
    rw [e]
    exact ⟨rfl, rfl⟩
  | cons i rest ih =>
    intro bf bf1 h
    rw [List.foldlM_cons] at h
    cases h1 : addStep hash bf i with
    | none => rw [h1] at h; exact Option.noConfusion h
    | some bf2 =>
      rw [h1] at h
      have f1 := addStep_frame hash bf bf2 i h1
      have f2 := ih bf2 bf1 h
      exact ⟨f2.1.trans f1.1, f2.2.trans f1.2⟩

theorem addAll_eq (Sum256 : String → Digest) (size k : Nat) (hsize : 0 < size)
    (ys : List String) :
    ∀ bits : Int, ∃ bits1 : Int,
      addAll Sum256 ⟨some bits, size, k⟩ ys = some ⟨some bits1, size, k⟩
        ∧ ∀ q, Int.testBit bits q = true → Int.testBit bits1 q = true := by
  induction ys with
  | nil => intro bits; exact ⟨bits, rfl, fun _ h => h⟩
  | cons y rest ih =>
    intro bits
    obtain ⟨bits1, h1, h2⟩ := ih (setAll bits ((List.range k).map (position size (Sum256 y))))
    refine ⟨bits1, ?_, ?_⟩
    · unfold addAll
      rw [List.foldlM_cons, Add_eq Sum256 bits size k y hsize]
      exact h1
    · intro q hq
      apply h2
      rw [testBit_setAll, hq]
      rfl

theorem all_positions_set (bits : Int) (size k : Nat) (hash : Digest) :
    (List.range k).all (fun i => Int.testBit
      (setAll bits ((List.range k).map (position size hash))) (position size hash i)) = true := by
  rw [List.all_eq_true]
  intro i hi
  rw [testBit_setAll]
  have : position size hash i ∈ (List.range k).map (position size hash) :=
    List.mem_map_of_mem _ hi
  simp [this]

/-- C1. No false negatives: on a filter with `size > 0` and any `k`, after `Add(x)`
followed by `Add` of every element of `ys`, all calls returning normally,
`Contains(x)` returns true. -/
theorem no_false_negatives (Sum256 : String → Digest) (bits : Int) (size k : Nat)
    (x : String) (ys : List String) (hsize : 0 < size) :
    ∃ bf1 bf2 : BloomFilter,
      Add Sum256 ⟨some bits, size, k⟩ x = some bf1
        ∧ addAll Sum256 bf1 ys = some bf2
        ∧ Contains Sum256 bf2 x = some (true, bf2) := by
  obtain ⟨bits2, h1, h2⟩ :=
    addAll_eq Sum256 size k hsize ys (setAll bits ((List.range k).map (position size (Sum256 x))))
  refine ⟨_, _, Add_eq Sum256 bits size k x hsize, h1, ?_⟩
  rw [Contains_eq Sum256 bits2 size k x hsize]
  have hall : (List.range k).all
      (fun i => Int.testBit bits2 (position size (Sum256 x) i)) = true := by
    rw [List.all_eq_true]
    intro i hi
    apply h2
    exact (List.all_eq_true.mp (all_positions_set bits size k (Sum256 x))) i hi
  rw [hall]

/-- Witness of C1: `NewBloom(100, 3)`, `Add("alice")`, `Add("bob")`, `Contains("alice")`. -/
theorem no_false_negatives_witness :
    0 < 100 ∧ ∃ bf1 bf2 : BloomFilter,
      Add sampleSum256 (NewBloom 100 3) "alice" = some bf1
        ∧ addAll sampleSum256 bf1 ["bob"] = some bf2
        ∧ Contains sampleSum256 bf2 "alice" = some (true, bf2) :=
  ⟨by decide, no_false_negatives sampleSum256 0 100 3 "alice" ["bob"] (by decide)⟩

/-- C2. On a filter with `size > 0`, `Contains(item)` returns, and its answer is true
exactly when for every index `i < k` the bit at `hashAt(digest(item), i)` is set. -/
theorem contains_iff_all_bits_set (Sum256 : String → Digest) (bits : Int) (size k : Nat)
    (item : String) (hsize : 0 < size) :
    ∃ r : Bool, Contains Sum256 ⟨some bits, size, k⟩ item = some (r, ⟨some bits, size, k⟩)
      ∧ (r = true ↔ ∀ i, i < k →
          ∃ p, hashAt ⟨some bits, size, k⟩ (Sum256 item) i = some p
            ∧ Int.testBit bits p = true) := by
  refine ⟨_, Contains_eq Sum256 bits size k item hsize, ?_⟩
  rw [List.all_eq_true]
  constructor
  · intro h i hi
    exact ⟨_, hashAt_eq _ _ _ hsize, h i (List.mem_range.mpr hi)⟩
  · intro h i hi
    obtain ⟨p, hp, hb⟩ := h i (List.mem_range.mp hi)
    rw [hashAt_eq _ _ _ hsize] at hp
    have e : position size (Sum256 item) i = p := Option.some.inj hp
    show Int.testBit bits (position size (Sum256 item) i) = true
    rw [e]
    exact hb

/-- Witness of C2: the query for "alice" on the fresh filter `NewBloom(100, 3)`. -/
theorem contains_iff_all_bits_set_witness :
    0 < 100 ∧ ∃ r : Bool,
      Contains sampleSum256 (NewBloom 100 3) "alice" = some (r, NewBloom 100 3)
      ∧ (r = true ↔ ∀ i, i < 3 →
          ∃ p, hashAt (NewBloom 100 3) (sampleSum256 "alice") i = some p
            ∧ Int.testBit 0 p = true) :=
  ⟨by decide, contains_iff_all_bits_set sampleSum256 0 100 3 "alice" (by decide)⟩

theorem windowStart_of_lt (i : Nat) (h : i < 2 ^ 62) : windowStart i = (i * 4) % 28 := by
  unfold windowStart
  rw [wrapUint_of_lt _ (by omega)]

/-- C3, as stated, fails. With the product `i * 4` taken over the integers the offset
for `i = 2 ^ 62` would be `2 ^ 64 mod 28 = 16`, giving position `195` on the digest
`00 01 ... 1f` with 1000 bits; the code multiplies in `uint`, the product wraps to
`0`, the window read is the one at offset `0`, and the position is `51`. -/
theorem hashAt_unbounded_product_fails :
    (2 ^ 62 * 4) % 28 = 16
      ∧ hashAt ⟨some 0, 1000, 2 ^ 63⟩ countingDigest (2 ^ 62) = some 51
      ∧ hashAt ⟨some 0, 1000, 2 ^ 63⟩ countingDigest (2 ^ 62)
          ≠ some ((digestByte countingDigest ((2 ^ 62 * 4) % 28) * 2 ^ 24
              + digestByte countingDigest ((2 ^ 62 * 4) % 28 + 1) * 2 ^ 16
              + digestByte countingDigest ((2 ^ 62 * 4) % 28 + 2) * 2 ^ 8
              + digestByte countingDigest ((2 ^ 62 * 4) % 28 + 3)) % 1000) := by
  decide

/-- C3, amended. For every digest, every `size > 0` and every index `i`, `hashAt`
returns the big-endian value of the four bytes from offset `s`, reduced modulo
`size`, where `s = ((i * 4) mod 2 ^ 64) mod 28`; for `i < 2 ^ 62` this offset is
`(i * 4) mod 28`. -/
theorem hashAt_window (bf : BloomFilter) (hash : Digest) (i : Nat) (hsize : 0 < bf.Size) :
    hashAt bf hash i
        = some ((digestByte hash (((i * 4) % 2 ^ 64) % 28) * 2 ^ 24
            + digestByte hash (((i * 4) % 2 ^ 64) % 28 + 1) * 2 ^ 16
            + digestByte hash (((i * 4) % 2 ^ 64) % 28 + 2) * 2 ^ 8
            + digestByte hash (((i * 4) % 2 ^ 64) % 28 + 3)) % bf.Size)
      ∧ (i < 2 ^ 62 →
          hashAt bf hash i
            = some ((digestByte hash ((i * 4) % 28) * 2 ^ 24
              + digestByte hash ((i * 4) % 28 + 1) * 2 ^ 16
              + digestByte hash ((i * 4) % 28 + 2) * 2 ^ 8
              + digestByte hash ((i * 4) % 28 + 3)) % bf.Size)) := by
  constructor
  · exact hashAt_eq bf hash i hsize
  · intro hi
    rw [hashAt_eq bf hash i hsize]
    unfold position bigEndian32
    rw [windowStart_of_lt i hi]

/-- Witness of C3 (amended): index `9` on a filter of 1000 bits reads offset `8`. -/
theorem hashAt_window_witness :
    0 < 1000 ∧ 9 < 2 ^ 62
      ∧ hashAt ⟨some 0, 1000, 10⟩ countingDigest 9
          = some ((digestByte countingDigest ((9 * 4) % 28) * 2 ^ 24
              + digestByte countingDigest ((9 * 4) % 28 + 1) * 2 ^ 16
              + digestByte countingDigest ((9 * 4) % 28 + 2) * 2 ^ 8
              + digestByte countingDigest ((9 * 4) % 28 + 3)) % 1000) :=
  ⟨by decide, by decide,
    (hashAt_window ⟨some 0, 1000, 10⟩ countingDigest 9 (by decide)).2 (by decide)⟩

theorem setAll_idem (bits : Int) (ps : List Nat) : setAll (setAll bits ps) ps = setAll bits ps := by
  apply int_eq_of_testBit_eq
  intro q
  rw [testBit_setAll, testBit_setAll]
  cases Int.testBit bits q <;> cases decide (q ∈ ps) <;> rfl

/-- C4. `Add` is idempotent: on a filter with `size > 0`, `Add(item)` returns a filter
on which a second `Add(item)` returns that same filter (bits, size and k). -/
theorem add_idempotent (Sum256 : String → Digest) (bits : Int) (size k : Nat)
    (item : String) (hsize : 0 < size) :
    ∃ bf1 : BloomFilter,
      Add Sum256 ⟨some bits, size, k⟩ item = some bf1 ∧ Add Sum256 bf1 item = some bf1 := by
  refine ⟨_, Add_eq Sum256 bits size k item hsize, ?_⟩
  rw [Add_eq Sum256 _ size k item hsize, setAll_idem]

/-- Witness of C4: adding "alice" twice to `NewBloom(100, 3)`. -/
theorem add_idempotent_witness :
    0 < 100 ∧ ∃ bf1 : BloomFilter,
      Add sampleSum256 (NewBloom 100 3) "alice" = some bf1
        ∧ Add sampleSum256 bf1 "alice" = some bf1 :=
  ⟨by decide, add_idempotent sampleSum256 0 100 3 "alice" (by decide)⟩

/-- C5. Bits are only set, never cleared: on a filter with `size > 0`, `Add(item)`
returns a filter in which every bit set before is still set, and `Contains(item)`
returns leaving the bit vector as it was. -/
theorem bits_never_cleared (Sum256 : String → Digest) (bits : Int) (size k : Nat)
    (item : String) (hsize : 0 < size) :
    (∃ bits1 : Int, Add Sum256 ⟨some bits, size, k⟩ item = some ⟨some bits1, size, k⟩
        ∧ ∀ p, Int.testBit bits p = true → Int.testBit bits1 p = true)
      ∧ ∃ r : Bool, Contains Sum256 ⟨some bits, size, k⟩ item
          = some (r, ⟨some bits, size, k⟩) := by
  refine ⟨⟨_, Add_eq Sum256 bits size k item hsize, ?_⟩,
    ⟨_, Contains_eq Sum256 bits size k item hsize⟩⟩
  intro p hp
  rw [testBit_setAll, hp]
  rfl

/-- Witness of C5: a filter of 100 bits with bits 0, 2 and 3 set (`13`). -/
theorem bits_never_cleared_witness :
    0 < 100
      ∧ (∃ bits1 : Int, Add sampleSum256 ⟨some 13, 100, 3⟩ "alice" = some ⟨some bits1, 100, 3⟩
          ∧ ∀ p, Int.testBit 13 p = true → Int.testBit bits1 p = true)
      ∧ ∃ r : Bool, Contains sampleSum256 ⟨some 13, 100, 3⟩ "alice"
          = some (r, ⟨some 13, 100, 3⟩) :=
  ⟨by decide, bits_never_cleared sampleSum256 13 100 3 "alice" (by decide)⟩

/-- C6. `Size` and `K` never change: whenever `Add(item)` returns, the filter it leaves
has the `Size` and `K` it had before; whenever `Contains(item)` returns, the filter
(bits, `Size`, `K`) is unchanged; and both return on every filter with allocated
bits and `Size > 0`. -/
theorem size_and_k_fixed (Sum256 : String → Digest) (bf : BloomFilter) (item : String) :
    (∀ bf1, Add Sum256 bf item = some bf1 → bf1.Size = bf.Size ∧ bf1.K = bf.K)
      ∧ (∀ r bf1, Contains Sum256 bf item = some (r, bf1) → bf1 = bf)
      ∧ (0 < bf.Size → bf.Bits ≠ none →
          (∃ bf1, Add Sum256 bf item = some bf1)
            ∧ ∃ r, Contains Sum256 bf item = some (r, bf)) := by
  refine ⟨?_, ?_, ?_⟩
  · intro bf1 h
    exact foldlM_addStep_frame (Sum256 item) (List.range bf.K) bf bf1 h
  · intro r bf1 h
    unfold Contains at h
    cases hc : containsLoop bf (Sum256 item) (List.range bf.K) with
    | none => rw [hc] at h; exact Option.noConfusion h
    | some r1 =>
      rw [hc] at h
      have e : (r1, bf) = (r, bf1) := Option.some.inj h
      exact (congrArg Prod.snd e).symm
  · intro hsize hbits
    obtain ⟨bits, size, k⟩ := bf
    cases bits with
    | none => exact absurd rfl hbits
    | some b =>
      exact ⟨⟨_, Add_eq Sum256 b size k item hsize⟩, ⟨_, Contains_eq Sum256 b size k item hsize⟩⟩

/-- Witness of C6: `Add("alice")` and `Contains("alice")` on `NewBloom(100, 3)`. -/
theorem size_and_k_fixed_witness :
    (∃ bf1, Add sampleSum256 (NewBloom 100 3) "alice" = some bf1
        ∧ bf1.Size = 100 ∧ bf1.K = 3)
      ∧ ∃ r, Contains sampleSum256 (NewBloom 100 3) "alice" = some (r, NewBloom 100 3) := by
  have h := size_and_k_fixed sampleSum256 (NewBloom 100 3) "alice"
  obtain ⟨⟨bf1, h1⟩, h2⟩ := h.2.2 (by decide) (by decide)
  exact ⟨⟨bf1, h1, h.1 bf1 h1⟩, h2⟩

/-- C9. `Add` and `Contains` do not fail on a filter with allocated bits and `size > 0`:
both return, and for every index `i` the window offset `s` has `s + 3 < 32`, the four
digest reads are in bounds, `hashAt` returns (the modulus is non-zero) an index
whose conversion to `int` is non-negative, and `SetBit` and `Bit` accept it. -/
theorem add_contains_defined (Sum256 : String → Digest) (bits : Int) (size k : Nat)
    (item : String) (hsize : 0 < size) :
    (∃ bf1, Add Sum256 ⟨some bits, size, k⟩ item = some bf1)
      ∧ (∃ r, Contains Sum256 ⟨some bits, size, k⟩ item = some (r, ⟨some bits, size, k⟩))
      ∧ ∀ i : Nat,
          (i * 4) % 28 + 3 < 32 ∧ windowStart i + 3 < 32
            ∧ (∃ b0 b1 b2 b3, byteAt (Sum256 item) (windowStart i) = some b0
                ∧ byteAt (Sum256 item) (windowStart i + 1) = some b1
                ∧ byteAt (Sum256 item) (windowStart i + 2) = some b2
                ∧ byteAt (Sum256 item) (windowStart i + 3) = some b3)
            ∧ ∃ idx, hashAt ⟨some bits, size, k⟩ (Sum256 item) i = some idx
                ∧ 0 ≤ toInt idx
                ∧ (∃ bits1, SetBit bits (toInt idx) 1 = some bits1)
                ∧ ∃ b, Bit bits (toInt idx) = some b := by
  refine ⟨⟨_, Add_eq Sum256 bits size k item hsize⟩,
    ⟨_, Contains_eq Sum256 bits size k item hsize⟩, ?_⟩
  intro i
  have hs := windowStart_lt i
  have hp := position_lt size (Sum256 item) i
  have hm : (i * 4) % 28 < 28 := Nat.mod_lt _ (by decide)
  refine ⟨by omega, by omega, ⟨_, _, _, _, byteAt_eq _ _ (by omega), byteAt_eq _ _ (by omega),
    byteAt_eq _ _ (by omega), byteAt_eq _ _ (by omega)⟩,
    ⟨position size (Sum256 item) i, hashAt_eq _ _ _ hsize, ?_,
      ⟨_, SetBit_one _ _ (by omega)⟩, ⟨_, Bit_eq _ _ (by omega)⟩⟩⟩
  rw [toInt_of_lt _ (by omega)]
  exact Int.ofNat_nonneg _

/-- Witness of C9: `NewBloom(100, 3)` and the item "alice". -/
theorem add_contains_defined_witness :
    0 < 100
      ∧ (∃ bf1, Add sampleSum256 (NewBloom 100 3) "alice" = some bf1)
      ∧ (∃ r, Contains sampleSum256 (NewBloom 100 3) "alice" = some (r, NewBloom 100 3))
      ∧ ∀ i : Nat,
          (i * 4) % 28 + 3 < 32 ∧ windowStart i + 3 < 32
            ∧ (∃ b0 b1 b2 b3, byteAt (sampleSum256 "alice") (windowStart i) = some b0
                ∧ byteAt (sampleSum256 "alice") (windowStart i + 1) = some b1
                ∧ byteAt (sampleSum256 "alice") (windowStart i + 2) = some b2
                ∧ byteAt (sampleSum256 "alice") (windowStart i + 3) = some b3)
            ∧ ∃ idx, hashAt (NewBloom 100 3) (sampleSum256 "alice") i = some idx
                ∧ 0 ≤ toInt idx
                ∧ (∃ bits1, SetBit 0 (toInt idx) 1 = some bits1)
                ∧ ∃ b, Bit 0 (toInt idx) = some b :=
  ⟨by decide, add_contains_defined sampleSum256 0 100 3 "alice" (by decide)⟩

/-- C10. `NewBloom(size, k)` returns a filter with allocated bits of which none is set,
and with `Size = size` and `K = k`. -/
theorem newBloom_zero_filled (size k : Nat) :
    (∃ bits : Int, (NewBloom size k).Bits = some bits ∧ ∀ p, Int.testBit bits p = false)
      ∧ (NewBloom size k).Size = size ∧ (NewBloom size k).K = k := by
  refine ⟨⟨0, rfl, ?_⟩, rfl, rfl⟩
  intro p
  show Nat.testBit 0 p = false
  exact Nat.zero_testBit p

theorem Save_ok (gob : Gob) (fs fs1 : FileSystem) (bf : BloomFilter) (path : String)
    (h : Save gob fs bf path = (fs1, none)) :
    fs1.content path = some (gob.Encode bf).1 ∧ (gob.Encode bf).2 = none := by
  unfold Save at h
  by_cases hc : fs.creatable path = true
  · rw [if_pos hc] at h
    have h1 := congrArg Prod.fst h
    have h2 := congrArg Prod.snd h
    simp only at h1 h2
    rw [← h1]
    exact ⟨if_pos rfl, h2⟩
  · rw [if_neg hc] at h
    have h2 := congrArg Prod.snd h
    exact Option.noConfusion h2

theorem fromBytes_append_singleton (l : List Nat) (b : Nat) :
    fromBytes (l ++ [b]) = fromBytes l * 256 + b := by
  unfold fromBytes
  rw [List.foldl_append]
  rfl

theorem fromBytes_bytesBE (fuel : Nat) : ∀ n, n ≤ fuel → fromBytes (bytesBE fuel n) = n := by
  induction fuel with
  | zero =>
    intro n hn
    have : n = 0 := by omega
    subst this
    rfl
  | succ fuel ih =>
    intro n hn
    unfold bytesBE
    by_cases h0 : n = 0
    · rw [if_pos h0, h0]
      rfl
    · rw [if_neg h0, fromBytes_append_singleton, ih (n / 256) (by omega)]
      omega

theorem fromBytes_natBytes (n : Nat) : fromBytes (natBytes n) = n :=
  fromBytes_bytesBE n n (Nat.le_refl n)

theorem bytesBE_length_le (fuel : Nat) :
    ∀ (k n : Nat), n < 256 ^ k → (bytesBE fuel n).length ≤ k := by
  induction fuel with
  | zero => intro k n _; exact Nat.zero_le k
  | succ fuel ih =>
    intro k n hn
    unfold bytesBE
    by_cases h0 : n = 0
    · rw [if_pos h0]
      exact Nat.zero_le k
    · rw [if_neg h0, List.length_append, List.length_singleton]
      cases k with
      | zero =>
        rw [pow_zero] at hn
        omega
      | succ k =>
        have hdiv : n / 256 < 256 ^ k := by
          rw [pow_succ] at hn
          exact Nat.div_lt_of_lt_mul (by rw [Nat.mul_comm]; exact hn)
        have := ih k (n / 256) hdiv
        omega

theorem natBytes_length_le (n : Nat) (h : n < 2 ^ 64) : (natBytes n).length ≤ 8 :=
  bytesBE_length_le n 8 n (by
    have e : (256 : Nat) ^ 8 = 2 ^ 64 := by norm_num
    rw [e]
    exact h)

theorem natBytes_length_pos (n : Nat) (h : n ≠ 0) : 1 ≤ (natBytes n).length := by
  unfold natBytes
  obtain ⟨m, rfl⟩ : ∃ m, n = m + 1 := ⟨n - 1, by omega⟩
  unfold bytesBE
  rw [if_neg h, List.length_append, List.length_singleton]
  omega

theorem decodeUint_cons (b : Nat) (rest : List Nat) :
    decodeUint (b :: rest)
      = if b < 128 then some (b, rest)
        else if 8 < 256 - b then none
        else if rest.length < 256 - b then none
        else some (fromBytes (rest.take (256 - b)), rest.drop (256 - b)) := rfl

theorem decodeUint_encodeUint (x : Nat) (rest : List Nat) (hx : x < 2 ^ 64) :
    decodeUint (encodeUint x ++ rest) = some (x, rest) := by
  unfold encodeUint
  by_cases h : x < 128
  · rw [if_pos h]
    show decodeUint (x :: rest) = some (x, rest)
    rw [decodeUint_cons, if_pos h]
  · rw [if_neg h]
    have h8 := natBytes_length_le x hx
    have h1 := natBytes_length_pos x (by omega)
    show decodeUint ((256 - (natBytes x).length) :: (natBytes x ++ rest)) = some (x, rest)
    have e : 256 - (256 - (natBytes x).length) = (natBytes x).length := by omega
    rw [decodeUint_cons, if_neg (by omega), e, if_neg (by omega),
      if_neg (by rw [List.length_append]; omega), List.take_left, List.drop_left,
      fromBytes_natBytes]

theorem intGobDecode_intGobEncode (z : Int) : intGobDecode (intGobEncode z) = some z := by
  unfold intGobEncode intGobDecode
  by_cases hz : z < 0
  · rw [if_pos hz]
    simp only [fromBytes_natBytes]
    have e : -((z.natAbs : Nat) : Int) = z := by omega
    rw [e]
    simp
  · rw [if_neg hz]
    simp only [fromBytes_natBytes]
    have e : ((z.natAbs : Nat) : Int) = z := by omega
    rw [e]
    simp

theorem decodeFields_end (fuel next : Nat) (rest : List Nat) (t : BloomFilter) :
    decodeFields (fuel + 1) next (0 :: rest) t = (t, none) := by
  simp [decodeFields, decodeUint_cons]

theorem decodeFields_bits (fuel : Nat) (z : Int) (rest : List Nat) (t : BloomFilter)
    (hlen : (intGobEncode z).length < tooBig) :
    decodeFields (fuel + 1) 0
        (1 :: (encodeUint (intGobEncode z).length ++ (intGobEncode z ++ rest))) t
      = decodeFields fuel 1 rest ⟨some z, t.Size, t.K⟩ := by
  have h64 : (intGobEncode z).length < 2 ^ 64 := by
    unfold tooBig at hlen
    omega
  have hn : ¬ (tooBig ≤ (intGobEncode z).length
      ∨ (intGobEncode z ++ rest).length < (intGobEncode z).length) := by
    rw [List.length_append]
    omega
  rw [decodeFields]
  simp only [decodeUint_cons]
  simp only [show (1 : Nat) < 128 from by decide, if_true, show ¬ ((1 : Nat) = 0) from by decide,
    if_false, show ¬ (3 < 0 + 1) from by decide, show 0 + 1 = 1 from rfl]
  rw [decodeUint_encodeUint _ _ h64]
  simp only [hn, if_false, List.take_left, List.drop_left, intGobDecode_intGobEncode]

theorem decodeFields_size (fuel next x : Nat) (rest : List Nat) (t : BloomFilter)
    (hnext : next < 2) (hx : x < 2 ^ 64) :
    decodeFields (fuel + 1) next ((2 - next) :: (encodeUint x ++ rest)) t
      = decodeFields fuel 2 rest ⟨t.Bits, x, t.K⟩ := by
  rw [decodeFields]
  simp only [decodeUint_cons]
  interval_cases next <;> simp [decodeUint_encodeUint _ _ hx]

theorem decodeFields_k (fuel next x : Nat) (rest : List Nat) (t : BloomFilter)
    (hnext : next < 3) (hx : x < 2 ^ 64) :
    decodeFields (fuel + 1) next ((3 - next) :: (encodeUint x ++ rest)) t
      = decodeFields fuel 3 rest ⟨t.Bits, t.Size, x⟩ := by
  rw [decodeFields]
  simp only [decodeUint_cons]
  interval_cases next <;> simp [decodeUint_encodeUint _ _ hx]

theorem decodeFields_encodeFields (bf : BloomFilter) (hsize : bf.Size < 2 ^ 64)
    (hk : bf.K < 2 ^ 64)
    (hbits : ∀ z, bf.Bits = some z → (intGobEncode z).length < tooBig) :
    decodeFields 4 0 (encodeFields bf) zeroBloomFilter = (bf, none) := by
  obtain ⟨bits, size, k⟩ := bf
  simp only at hsize hk hbits
  have e0 : encodeUint 0 = [0] := rfl
  have e1 : encodeUint 1 = [1] := rfl
  have e2 : encodeUint 2 = [2] := rfl
  have e3 : encodeUint 3 = [3] := rfl
  cases bits with
  | none =>
    by_cases hs : size = 0
    · by_cases hkz : k = 0
      · subst hs; subst hkz
        rfl
      · subst hs
        have e : encodeFields ⟨none, 0, k⟩ = (3 - 0) :: (encodeUint k ++ [0]) := by
          simp [encodeFields, hkz, e0, e3]
        rw [e, decodeFields_k 3 0 k _ _ (by decide) hk, decodeFields_end]
        rfl
    · by_cases hkz : k = 0
      · subst hkz
        have e : encodeFields ⟨none, size, 0⟩ = (2 - 0) :: (encodeUint size ++ [0]) := by
          simp [encodeFields, hs, e0, e2]
        rw [e, decodeFields_size 3 0 size _ _ (by decide) hsize, decodeFields_end]
        rfl
      · have e : encodeFields ⟨none, size, k⟩
            = (2 - 0) :: (encodeUint size ++ ((3 - 2) :: (encodeUint k ++ [0]))) := by
          simp [encodeFields, hs, hkz, e0, e1, e2]
        rw [e, decodeFields_size 3 0 size _ _ (by decide) hsize,
          decodeFields_k 2 2 k _ _ (by decide) hk, decodeFields_end]
        rfl
  | some z =>
    have hz := hbits z rfl
    by_cases hs : size = 0
    · by_cases hkz : k = 0
      · subst hs; subst hkz
        have e : encodeFields ⟨some z, 0, 0⟩
            = 1 :: (encodeUint (intGobEncode z).length ++ (intGobEncode z ++ [0])) := by
          simp [encodeFields, e0, e1]
        rw [e, decodeFields_bits 3 z _ _ hz, decodeFields_end]
        rfl
      · subst hs
        have e : encodeFields ⟨some z, 0, k⟩
            = 1 :: (encodeUint (intGobEncode z).length
                ++ (intGobEncode z ++ ((3 - 1) :: (encodeUint k ++ [0])))) := by
          simp [encodeFields, hkz, e0, e1, e2]
        rw [e, decodeFields_bits 3 z _ _ hz, decodeFields_k 2 1 k _ _ (by decide) hk,
          decodeFields_end]
        rfl
    · by_cases hkz : k = 0
      · subst hkz
        have e : encodeFields ⟨some z, size, 0⟩
            = 1 :: (encodeUint (intGobEncode z).length
                ++ (intGobEncode z ++ ((2 - 1) :: (encodeUint size ++ [0])))) := by
          simp [encodeFields, hs, e0, e1]
        rw [e, decodeFields_bits 3 z _ _ hz, decodeFields_size 2 1 size _ _ (by decide) hsize,
          decodeFields_end]
        rfl
      · have e : encodeFields ⟨some z, size, k⟩
            = 1 :: (encodeUint (intGobEncode z).length
                ++ (intGobEncode z ++ ((2 - 1) :: (encodeUint size
                  ++ ((3 - 2) :: (encodeUint k ++ [0])))))) := by
          simp [encodeFields, hs, hkz, e0, e1]
        rw [e, decodeFields_bits 3 z _ _ hz, decodeFields_size 2 1 size _ _ (by decide) hsize,
          decodeFields_k 1 2 k _ _ (by decide) hk, decodeFields_end]

theorem dropHeader_append (h rest : List Nat) : dropHeader h (h ++ rest) = some rest := by
  unfold dropHeader
  rw [List.take_left, if_pos rfl, List.drop_left]

theorem intGobEncode_length_le (bits : Option Int) (size k : Nat) (z : Int)
    (h : bits = some z) :
    (intGobEncode z).length ≤ (encodeFields ⟨bits, size, k⟩).length := by
  subst h
  unfold encodeFields
  simp only [List.length_append]
  omega

theorem gobDecode_gobEncode (info : GobTypeInfo) (bf : BloomFilter) (hsize : bf.Size < 2 ^ 64)
    (hk : bf.K < 2 ^ 64) (henc : (gobEncode info bf).2 = none) :
    gobDecode info (gobEncode info bf).1 zeroBloomFilter = (bf, none) := by
  by_cases hlt : (info.typeId ++ encodeFields bf).length < tooBig
  · have hbits : ∀ z, bf.Bits = some z → (intGobEncode z).length < tooBig := by
      intro z hz
      have h1 := intGobEncode_length_le bf.Bits bf.Size bf.K z hz
      rw [List.length_append] at hlt
      exact Nat.lt_of_le_of_lt (Nat.le_trans h1 (Nat.le_add_left _ _)) hlt
    have h64 : (info.typeId ++ encodeFields bf).length < 2 ^ 64 := by
      unfold tooBig at hlt
      omega
    have hn : ¬ (tooBig ≤ (info.typeId ++ encodeFields bf).length
        ∨ (info.typeId ++ encodeFields bf).length < (info.typeId ++ encodeFields bf).length) := by
      omega
    have e : (gobEncode info bf).1
        = info.descriptors ++ (encodeUint (info.typeId ++ encodeFields bf).length
            ++ (info.typeId ++ encodeFields bf)) := by
      unfold gobEncode
      rw [if_pos hlt, List.append_assoc]
    rw [e]
    unfold gobDecode
    rw [dropHeader_append]
    simp only []
    rw [decodeUint_encodeUint _ _ h64]
    simp only [hn, if_false, List.take_length, dropHeader_append]
    exact decodeFields_encodeFields bf hsize hk hbits
  · exfalso
    unfold gobEncode at henc
    rw [if_neg hlt] at henc
    exact Option.noConfusion henc

theorem load_after_save (gob : Gob) (fs fs1 : FileSystem) (bf : BloomFilter) (path : String)
    (hsave : Save gob fs bf path = (fs1, none))
    (hdec : (gob.Encode bf).2 = none → gob.Decode (gob.Encode bf).1 zeroBloomFilter = (bf, none)) :
    LoadBloom gob fs1 path = (some bf, none) := by
  obtain ⟨hc, he⟩ := Save_ok gob fs fs1 bf path hsave
  unfold LoadBloom
  rw [hc]
  simp only [hdec he]

theorem decodeFields_fuel (fuel : Nat) :
    ∀ (next : Nat) (buf : List Nat) (t : BloomFilter), next ≤ 3 → 4 ≤ fuel + next →
      decodeFields (fuel + 1) next buf t = decodeFields fuel next buf t := by
  induction fuel with
  | zero => intro next buf t h1 h2; omega
  | succ fuel ih =>
    intro next buf t h1 h2
    cases buf with
    | nil => simp [decodeFields]
    | cons b rest =>
      rw [decodeFields, decodeFields.eq_def (fuel + 1)]
      simp only []
      cases decodeUint (b :: rest) with
      | none => rfl
      | some p =>
        obtain ⟨delta, rest1⟩ := p
        simp only []
        by_cases hd : delta = 0
        · simp [hd]
        · by_cases hr : 3 < next + delta
          · simp [hd, hr]
          · simp only [hd, hr, if_false]
            cases decodeUint rest1 with
            | none => rfl
            | some q =>
              obtain ⟨x, data⟩ := q
              simp only []
              by_cases hone : next + delta = 1
              · simp only [hone, if_true]
                by_cases hb : tooBig ≤ x ∨ data.length < x
                · simp [hb]
                · simp only [hb, if_false]
                  cases intGobDecode (List.take x data) with
                  | none => rfl
                  | some z => exact ih 1 _ _ (by omega) (by omega)
              · by_cases htwo : next + delta = 2
                · simp only [hone, htwo, if_true, if_false]
                  exact ih 2 _ _ (by omega) (by omega)
                · simp only [hone, htwo, if_false]
                  exact ih 3 _ _ (by omega) (by omega)

theorem decodeFields_four_enough (m : Nat) (buf : List Nat) (t : BloomFilter) :
    decodeFields (4 + m) 0 buf t = decodeFields 4 0 buf t := by
  induction m with
  | zero => rfl
  | succ m ih =>
    rw [← ih]
    exact decodeFields_fuel (4 + m) 0 buf t (by omega) (by omega)

/-- C7. Save/Load round trip: for every filter state (with `Size` and `K` in the range of
`uint`), when `Save(path)` succeeds, `LoadBloom(path)` succeeds and returns an
instance with the `Bits`, `Size` and `K` of the saved one, on which `Contains` gives
the same answer as on the saved one for every item. -/
theorem save_load_roundtrip (info : GobTypeInfo) (fs fs1 : FileSystem) (bf : BloomFilter)
    (path : String) (hsize : bf.Size < 2 ^ 64) (hk : bf.K < 2 ^ 64)
    (hsave : Save (gobCodec info) fs bf path = (fs1, none)) :
    ∃ loaded : BloomFilter, LoadBloom (gobCodec info) fs1 path = (some loaded, none)
      ∧ loaded.Bits = bf.Bits ∧ loaded.Size = bf.Size ∧ loaded.K = bf.K
      ∧ ∀ (Sum256 : String → Digest) (item : String),
          (Contains Sum256 loaded item).map Prod.fst = (Contains Sum256 bf item).map Prod.fst :=
  ⟨bf, load_after_save (gobCodec info) fs fs1 bf path hsave
      (fun henc => gobDecode_gobEncode info bf hsize hk henc),
    rfl, rfl, rfl, fun _ _ => rfl⟩

/-- Witness of C7: saving the filter with bits `13`, 100 bits and `k = 3`, and loading it
back. -/
theorem save_load_roundtrip_witness :
    ∃ loaded : BloomFilter,
      LoadBloom (gobCodec sampleTypeInfo)
          (Save (gobCodec sampleTypeInfo) sampleFS ⟨some 13, 100, 3⟩ "filter.bloom").1
          "filter.bloom" = (some loaded, none)
      ∧ loaded.Bits = some 13 ∧ loaded.Size = 100 ∧ loaded.K = 3
      ∧ ∀ (Sum256 : String → Digest) (item : String),
          (Contains Sum256 loaded item).map Prod.fst
            = (Contains Sum256 ⟨some 13, 100, 3⟩ item).map Prod.fst :=
  save_load_roundtrip sampleTypeInfo sampleFS
    (Save (gobCodec sampleTypeInfo) sampleFS ⟨some 13, 100, 3⟩ "filter.bloom").1
    ⟨some 13, 100, 3⟩ "filter.bloom" (by decide) (by decide) (Prod.ext rfl (by decide))

/-- C8, on the code. When the file opens and the decoder fails, `LoadBloom` returns the
error together with a non-nil instance, holding whatever the decoder assigned
before failing; only when the file cannot be opened is the instance nil. -/
theorem LoadBloom_failure_instance (gob : Gob) (fs : FileSystem) (path : String) :
    (fs.content path = none → LoadBloom gob fs path = (none, some Error.pathError))
      ∧ ∀ data e, fs.content path = some data →
          (gob.Decode data zeroBloomFilter).2 = some e →
          LoadBloom gob fs path = (some (gob.Decode data zeroBloomFilter).1, some e) := by
  constructor
  · intro h
    unfold LoadBloom
    rw [h]
  · intro data e h he
    simp only [LoadBloom, h, he]

/-- Evaluation of C8 on a truncated file: the error comes with a non-nil instance, the
zero value of the struct. -/
theorem LoadBloom_failure_instance_witness :
    LoadBloom (gobCodec sampleTypeInfo) brokenFS "broken.bloom"
      = (some ⟨none, 0, 0⟩, some (Error.codecError 1)) :=
  (LoadBloom_failure_instance (gobCodec sampleTypeInfo) brokenFS "broken.bloom").2
    [11, 255, 130, 1, 2, 2, 13] (Error.codecError 1) (by decide) (by decide)

/-! ## Further claims on the filter -/

theorem hashAt_size_zero (bits : Option Int) (k : Nat) (hash : Digest) (i : Nat) :
    hashAt ⟨bits, 0, k⟩ hash i = none := by
  have hs := windowStart_lt i
  have w1 : wrapUint (windowStart i + 1) = windowStart i + 1 := wrapUint_of_lt _ (by omega)
  have w2 : wrapUint (windowStart i + 2) = windowStart i + 2 := wrapUint_of_lt _ (by omega)
  have w3 : wrapUint (windowStart i + 3) = windowStart i + 3 := wrapUint_of_lt _ (by omega)
  unfold hashAt
  show (do
    let b0 ← byteAt hash (windowStart i)
    let b1 ← byteAt hash (wrapUint (windowStart i + 1))
    let b2 ← byteAt hash (wrapUint (windowStart i + 2))
    let b3 ← byteAt hash (wrapUint (windowStart i + 3))
    if (0 : Nat) = 0 then none
    else some ((wrapUint (b0 <<< 24) ||| wrapUint (b1 <<< 16) ||| wrapUint (b2 <<< 8) ||| b3)
      % 0)) = _
  rw [w1, w2, w3, byteAt_eq _ _ (by omega), byteAt_eq _ _ (by omega), byteAt_eq _ _ (by omega),
    byteAt_eq _ _ (by omega)]
  rfl

/-- C11, as stated, fails. `NewBloom(0, 3)` returns an instance, with `Size = 0`, and on
that instance `Add` and `Contains` panic on the division by zero in `hashAt`. -/
theorem newBloom_size_zero_not_rejected :
    NewBloom 0 3 = ⟨some 0, 0, 3⟩
      ∧ Add sampleSum256 (NewBloom 0 3) "alice" = none
      ∧ Contains sampleSum256 (NewBloom 0 3) "alice" = none := by
  decide

/-- C11, amended. Construction with `size = 0` does not fail: `NewBloom(0, k)` returns the
instance with empty bits, `Size = 0` and `K = k`, and for `k > 0` every `Add` and
every `Contains` on that instance panics (division by zero in `hashAt`). -/
theorem newBloom_size_zero (Sum256 : String → Digest) (k : Nat) (item : String) :
    NewBloom 0 k = ⟨some 0, 0, k⟩
      ∧ (0 < k → Add Sum256 (NewBloom 0 k) item = none
          ∧ Contains Sum256 (NewBloom 0 k) item = none) := by
  refine ⟨rfl, ?_⟩
  intro hk
  obtain ⟨n, rfl⟩ : ∃ n, k = n + 1 := ⟨k - 1, by omega⟩
  constructor
  · show (List.range (n + 1)).foldlM (addStep (Sum256 item)) ⟨some 0, 0, n + 1⟩ = none
    rw [List.range_succ_eq_map, List.foldlM_cons]
    unfold addStep
    rw [hashAt_size_zero]
    rfl
  · show (containsLoop ⟨some 0, 0, n + 1⟩ (Sum256 item) (List.range (n + 1))).map _ = none
    rw [List.range_succ_eq_map]
    unfold containsLoop
    rw [hashAt_size_zero]
    rfl

/-- Witness of C11 (amended): `NewBloom(0, 3)` and the item "alice". -/
theorem newBloom_size_zero_witness :
    0 < 3 ∧ Add sampleSum256 (NewBloom 0 3) "alice" = none
      ∧ Contains sampleSum256 (NewBloom 0 3) "alice" = none :=
  ⟨by decide, (newBloom_size_zero sampleSum256 3 "alice").2 (by decide)⟩

theorem windowStart_add_seven (i : Nat) (h : i + 7 < 2 ^ 62) :
    windowStart (i + 7) = windowStart i := by
  rw [windowStart_of_lt _ h, windowStart_of_lt i (by omega)]
  omega

/-- C13, as stated, fails. With `k = 2 ^ 63` and `i = 2 ^ 62 - 7` (so `i + 7 < k`), the
product `i * 4` does not wrap and `(i + 7) * 4` wraps to `0`: index `i` reads the
window at offset 16 and index `i + 7` the window at offset 0. -/
theorem period_seven_fails_at_wrap :
    2 ^ 62 - 7 + 7 < 2 ^ 63
      ∧ hashAt ⟨some 0, 1000, 2 ^ 63⟩ countingDigest (2 ^ 62 - 7) = some 195
      ∧ hashAt ⟨some 0, 1000, 2 ^ 63⟩ countingDigest (2 ^ 62 - 7 + 7) = some 51 := by
  decide

/-- C13, amended. Derived positions repeat with period 7 as long as the index stays
below `2 ^ 62`: for every digest, every `size > 0` and every `i` with
`i + 7 < 2 ^ 62`, indices `i + 7` and `i` derive the same position. -/
theorem period_seven (bf : BloomFilter) (hash : Digest) (i : Nat) (hsize : 0 < bf.Size)
    (hi : i + 7 < 2 ^ 62) :
    ∃ p, hashAt bf hash i = some p ∧ hashAt bf hash (i + 7) = some p := by
  refine ⟨position bf.Size hash i, hashAt_eq bf hash i hsize, ?_⟩
  rw [hashAt_eq bf hash (i + 7) hsize]
  unfold position
  rw [windowStart_add_seven i hi]

/-- Witness of C13 (amended): `k = 10` and `i = 0, 1, 2`. -/
theorem period_seven_witness :
    (∃ p, hashAt (NewBloom 100 10) (sampleSum256 "alice") 0 = some p
        ∧ hashAt (NewBloom 100 10) (sampleSum256 "alice") (0 + 7) = some p)
      ∧ (∃ p, hashAt (NewBloom 100 10) (sampleSum256 "alice") 1 = some p
        ∧ hashAt (NewBloom 100 10) (sampleSum256 "alice") (1 + 7) = some p)
      ∧ ∃ p, hashAt (NewBloom 100 10) (sampleSum256 "alice") 2 = some p
        ∧ hashAt (NewBloom 100 10) (sampleSum256 "alice") (2 + 7) = some p :=
  ⟨period_seven (NewBloom 100 10) (sampleSum256 "alice") 0 (by decide) (by decide),
    period_seven (NewBloom 100 10) (sampleSum256 "alice") 1 (by decide) (by decide),
    period_seven (NewBloom 100 10) (sampleSum256 "alice") 2 (by decide) (by decide)⟩

theorem windowStart_mod_four (i : Nat) : windowStart i % 4 = 0 := by
  unfold windowStart wrapUint uintRange
  omega

theorem digestByte_congr (h1 h2 : Digest)
    (hagree : ∀ j : Fin 32, j.val < 28 → h1 j = h2 j) (j : Nat) (hj : j < 28) :
    digestByte h1 j = digestByte h2 j := by
  have h32 : j < 32 := by omega
  unfold digestByte
  rw [dif_pos h32, dif_pos h32, hagree ⟨j, h32⟩ hj]

/-- C14. Index derivation reads only the first 28 digest bytes: for every index the window
offset is one of 0, 4, 8, 12, 16, 20, 24, and two digests that agree on bytes 0..27
derive the same position for every index and every `size > 0`. -/
theorem only_first_28_bytes (i : Nat) :
    windowStart i ∈ [0, 4, 8, 12, 16, 20, 24]
      ∧ ∀ (bf : BloomFilter) (h1 h2 : Digest), 0 < bf.Size →
          (∀ j : Fin 32, j.val < 28 → h1 j = h2 j) →
          ∃ p, hashAt bf h1 i = some p ∧ hashAt bf h2 i = some p := by
  have hs := windowStart_lt i
  have hm := windowStart_mod_four i
  constructor
  · simp only [List.mem_cons, List.mem_singleton, List.not_mem_nil, or_false]
    omega
  · intro bf h1 h2 hsize hagree
    refine ⟨position bf.Size h1 i, hashAt_eq bf h1 i hsize, ?_⟩
    rw [hashAt_eq bf h2 i hsize]
    unfold position bigEndian32
    rw [digestByte_congr h1 h2 hagree _ (by omega), digestByte_congr h1 h2 hagree _ (by omega),
      digestByte_congr h1 h2 hagree _ (by omega), digestByte_congr h1 h2 hagree _ (by omega)]

/-- Witness of C14: index 9 on two digests that differ only in bytes 28..31. -/
theorem only_first_28_bytes_witness :
    countingDigest ⟨28, by decide⟩ ≠ alteredTailDigest ⟨28, by decide⟩
      ∧ ∃ p, hashAt ⟨some 0, 1000, 10⟩ countingDigest 9 = some p
        ∧ hashAt ⟨some 0, 1000, 10⟩ alteredTailDigest 9 = some p :=
  ⟨by decide, (only_first_28_bytes 9).2 ⟨some 0, 1000, 10⟩ countingDigest alteredTailDigest
    (by decide) (by decide)⟩

/-- C15. With `K = 0` membership is vacuous: on every filter state with `K = 0` (any size,
any bits, allocated or not) `Contains(item)` returns true and `Add(item)` returns
leaving the filter unchanged. -/
theorem k_zero_vacuous (Sum256 : String → Digest) (bits : Option Int) (size : Nat)
    (item : String) :
    Contains Sum256 ⟨bits, size, 0⟩ item = some (true, ⟨bits, size, 0⟩)
      ∧ Add Sum256 ⟨bits, size, 0⟩ item = some ⟨bits, size, 0⟩ :=
  ⟨rfl, rfl⟩

theorem setAll_append (bits : Int) (ps qs : List Nat) :
    setAll bits (ps ++ qs) = setAll (setAll bits ps) qs := by
  unfold setAll
  rw [List.foldl_append]

theorem addAll_eq_setAll (Sum256 : String → Digest) (size k : Nat) (hsize : 0 < size)
    (ys : List String) :
    ∀ bits : Int, addAll Sum256 ⟨some bits, size, k⟩ ys
      = some ⟨some (setAll bits (allPositions Sum256 size k ys)), size, k⟩ := by
  induction ys with
  | nil => intro bits; rfl
  | cons y rest ih =>
    intro bits
    unfold addAll
    rw [List.foldlM_cons, Add_eq Sum256 bits size k y hsize]
    show addAll Sum256 _ rest = _
    rw [ih]
    show _ = some ⟨some (setAll bits (_ ++ _)), size, k⟩
    rw [setAll_append]

theorem mem_allPositions (Sum256 : String → Digest) (size k : Nat) (q : Nat)
    (ys : List String) :
    q ∈ allPositions Sum256 size k ys
      ↔ ∃ y, y ∈ ys ∧ ∃ i, i < k ∧ position size (Sum256 y) i = q := by
  induction ys with
  | nil => simp [allPositions]
  | cons y rest ih =>
    unfold allPositions
    rw [List.mem_append, ih, List.mem_map]
    constructor
    · rintro (⟨i, hi, e⟩ | ⟨z, hz, i, hi, e⟩)
      · exact ⟨y, List.mem_cons_self _ _, i, List.mem_range.mp hi, e⟩
      · exact ⟨z, List.mem_cons_of_mem _ hz, i, hi, e⟩
    · rintro ⟨z, hz, i, hi, e⟩
      rcases List.mem_cons.mp hz with rfl | hz1
      · exact Or.inl ⟨i, List.mem_range.mpr hi, e⟩
      · exact Or.inr ⟨z, hz1, i, hi, e⟩

/-- C16. Reachable-state invariant: every filter obtained from `NewBloom(size, k)` with
`size > 0` by a finite run of `Add` calls has all its set bits at positions
`p < size` and `p < 2 ^ 32`. -/
theorem reachable_bits_in_range (Sum256 : String → Digest) (size k : Nat)
    (items : List String) (hsize : 0 < size) :
    ∃ bits : Int, addAll Sum256 (NewBloom size k) items = some ⟨some bits, size, k⟩
      ∧ ∀ p, Int.testBit bits p = true → p < size ∧ p < 2 ^ 32 := by
  refine ⟨_, addAll_eq_setAll Sum256 size k hsize items 0, ?_⟩
  intro p hp
  rw [testBit_setAll] at hp
  have hz : Int.testBit 0 p = false := Nat.zero_testBit p
  rw [hz, Bool.false_or, decide_eq_true_iff, mem_allPositions] at hp
  obtain ⟨y, _, i, _, e⟩ := hp
  rw [← e]
  exact ⟨Nat.mod_lt _ hsize, position_lt size (Sum256 y) i⟩

/-- Witness of C16: `NewBloom(100, 3)` after `Add("alice")` and `Add("bob")`. -/
theorem reachable_bits_in_range_witness :
    0 < 100 ∧ ∃ bits : Int,
      addAll sampleSum256 (NewBloom 100 3) ["alice", "bob"] = some ⟨some bits, 100, 3⟩
        ∧ ∀ p, Int.testBit bits p = true → p < 100 ∧ p < 2 ^ 32 :=
  ⟨by decide, reachable_bits_in_range sampleSum256 100 3 ["alice", "bob"] (by decide)⟩

theorem setAll_congr (bits : Int) (ps qs : List Nat) (h : ∀ q, q ∈ ps ↔ q ∈ qs) :
    setAll bits ps = setAll bits qs := by
  apply int_eq_of_testBit_eq
  intro q
  rw [testBit_setAll, testBit_setAll]
  have e : decide (q ∈ ps) = decide (q ∈ qs) := decide_eq_decide.mpr (h q)
  rw [e]

/-- C17. Insertion order does not matter: on a filter with `size > 0`, `Add(a)` then
`Add(b)` leaves the same filter as `Add(b)` then `Add(a)`; and two runs of `Add`
calls over lists with the same elements leave the same filter. -/
theorem add_order_irrelevant (Sum256 : String → Digest) (bits : Int) (size k : Nat)
    (a b : String) (hsize : 0 < size) :
    (∃ bfa bfb bf2 : BloomFilter,
        Add Sum256 ⟨some bits, size, k⟩ a = some bfa ∧ Add Sum256 bfa b = some bf2
          ∧ Add Sum256 ⟨some bits, size, k⟩ b = some bfb ∧ Add Sum256 bfb a = some bf2)
      ∧ ∀ xs ys : List String, (∀ x, x ∈ xs ↔ x ∈ ys) →
          ∃ bf3 : BloomFilter, addAll Sum256 ⟨some bits, size, k⟩ xs = some bf3
            ∧ addAll Sum256 ⟨some bits, size, k⟩ ys = some bf3 := by
  constructor
  · refine ⟨_, _, _, Add_eq Sum256 bits size k a hsize, Add_eq Sum256 _ size k b hsize,
      Add_eq Sum256 bits size k b hsize, ?_⟩
    rw [Add_eq Sum256 _ size k a hsize, ← setAll_append, ← setAll_append]
    rw [setAll_congr bits
      ((List.range k).map (position size (Sum256 b)) ++ (List.range k).map (position size (Sum256 a)))
      ((List.range k).map (position size (Sum256 a)) ++ (List.range k).map (position size (Sum256 b)))
      (fun q => by rw [List.mem_append, List.mem_append]; exact Or.comm)]
  · intro xs ys hxy
    refine ⟨_, addAll_eq_setAll Sum256 size k hsize xs bits, ?_⟩
    rw [addAll_eq_setAll Sum256 size k hsize ys bits]
    rw [setAll_congr bits (allPositions Sum256 size k xs) (allPositions Sum256 size k ys)
      (fun q => by
        rw [mem_allPositions, mem_allPositions]
        constructor
        · rintro ⟨y, hy, rest⟩
          exact ⟨y, (hxy y).mp hy, rest⟩
        · rintro ⟨y, hy, rest⟩
          exact ⟨y, (hxy y).mpr hy, rest⟩)]

/-- Witness of C17: "alice" and "bob" on `NewBloom(100, 3)`, in both orders. -/
theorem add_order_irrelevant_witness :
    0 < 100 ∧ ∃ bfa bfb bf2 : BloomFilter,
      Add sampleSum256 (NewBloom 100 3) "alice" = some bfa
        ∧ Add sampleSum256 bfa "bob" = some bf2
        ∧ Add sampleSum256 (NewBloom 100 3) "bob" = some bfb
        ∧ Add sampleSum256 bfb "alice" = some bf2 :=
  ⟨by decide, (add_order_irrelevant sampleSum256 0 100 3 "alice" "bob" (by decide)).1⟩

theorem windowStart_small (j : Nat) (h : j < 7) : windowStart j = j * 4 := by
  rw [windowStart_of_lt j (by omega)]
  omega

theorem windowStart_reduce (i : Nat) : ∃ j, j < 7 ∧ windowStart j = windowStart i := by
  have hs := windowStart_lt i
  have hm := windowStart_mod_four i
  refine ⟨windowStart i / 4, by omega, ?_⟩
  rw [windowStart_small _ (by omega)]
  omega

theorem mem_positions_cap (size : Nat) (hash : Digest) (k : Nat) (hk : 7 ≤ k) (q : Nat) :
    q ∈ (List.range k).map (position size hash) ↔ q ∈ (List.range 7).map (position size hash) := by
  rw [List.mem_map, List.mem_map]
  constructor
  · rintro ⟨i, _, e⟩
    obtain ⟨j, hj, hw⟩ := windowStart_reduce i
    refine ⟨j, List.mem_range.mpr hj, ?_⟩
    rw [← e]
    unfold position
    rw [hw]
  · rintro ⟨j, hj, e⟩
    exact ⟨j, List.mem_range.mpr (by have := List.mem_range.mp hj; omega), e⟩

theorem positions_subset_seven (size : Nat) (hash : Digest) (k : Nat) (q : Nat)
    (h : q ∈ (List.range k).map (position size hash)) :
    q ∈ (List.range 7).map (position size hash) := by
  obtain ⟨i, _, e⟩ := List.mem_map.mp h
  obtain ⟨j, hj, hw⟩ := windowStart_reduce i
  refine List.mem_map.mpr ⟨j, List.mem_range.mpr hj, ?_⟩
  rw [← e]
  unfold position
  rw [hw]

/-- C18. The effective `k` is capped at 7: for `size > 0` and every `k ≥ 7`, `Add` with
`K = k` leaves the same bits as `Add` with `K = 7`, `Contains` with `K = k` gives the
answer of `Contains` with `K = 7`, and the positions derived for an item are at most
7 distinct values. -/
theorem effective_k_capped (Sum256 : String → Digest) (bits : Int) (size k : Nat)
    (item : String) (hsize : 0 < size) (hk : 7 ≤ k) :
    (∃ bits1 : Int, Add Sum256 ⟨some bits, size, k⟩ item = some ⟨some bits1, size, k⟩
        ∧ Add Sum256 ⟨some bits, size, 7⟩ item = some ⟨some bits1, size, 7⟩)
      ∧ (∃ r : Bool, Contains Sum256 ⟨some bits, size, k⟩ item = some (r, ⟨some bits, size, k⟩)
        ∧ Contains Sum256 ⟨some bits, size, 7⟩ item = some (r, ⟨some bits, size, 7⟩))
      ∧ ((List.range k).map (position size (Sum256 item))).dedup.length ≤ 7 := by
  refine ⟨⟨_, Add_eq Sum256 bits size k item hsize, ?_⟩,
    ⟨_, Contains_eq Sum256 bits size k item hsize, ?_⟩, ?_⟩
  · rw [Add_eq Sum256 bits size 7 item hsize]
    rw [setAll_congr bits _ _ (mem_positions_cap size (Sum256 item) k hk)]
  · rw [Contains_eq Sum256 bits size 7 item hsize]
    have e : (List.range k).all (fun i => Int.testBit bits (position size (Sum256 item) i))
        = (List.range 7).all (fun i => Int.testBit bits (position size (Sum256 item) i)) := by
      rw [Bool.eq_iff_iff, List.all_eq_true, List.all_eq_true]
      constructor
      · intro h j hj
        exact h j (List.mem_range.mpr (by have := List.mem_range.mp hj; omega))
      · intro h i _
        obtain ⟨j, hj, hw⟩ := windowStart_reduce i
        have := h j (List.mem_range.mpr hj)
        unfold position at this ⊢
        rw [hw] at this
        exact this
    rw [e]
  · rw [← List.card_toFinset]
    have hsub : ((List.range k).map (position size (Sum256 item))).toFinset
        ⊆ ((List.range 7).map (position size (Sum256 item))).toFinset := by
      intro q hq
      rw [List.mem_toFinset] at hq ⊢
      exact positions_subset_seven size (Sum256 item) k q hq
    calc ((List.range k).map (position size (Sum256 item))).toFinset.card
        ≤ ((List.range 7).map (position size (Sum256 item))).toFinset.card :=
          Finset.card_le_card hsub
      _ ≤ ((List.range 7).map (position size (Sum256 item))).length := List.toFinset_card_le _
      _ = 7 := by rw [List.length_map, List.length_range]

/-- Witness of C18: `k = 10` against `k = 7` on a filter of 100 bits. -/
theorem effective_k_capped_witness :
    0 < 100 ∧ 7 ≤ 10
      ∧ (∃ bits1 : Int, Add sampleSum256 (NewBloom 100 10) "alice" = some ⟨some bits1, 100, 10⟩
        ∧ Add sampleSum256 (NewBloom 100 7) "alice" = some ⟨some bits1, 100, 7⟩)
      ∧ (∃ r : Bool, Contains sampleSum256 (NewBloom 100 10) "alice" = some (r, NewBloom 100 10)
        ∧ Contains sampleSum256 (NewBloom 100 7) "alice" = some (r, NewBloom 100 7))
      ∧ ((List.range 10).map (position 100 (sampleSum256 "alice"))).dedup.length ≤ 7 :=
  ⟨by decide, by decide, effective_k_capped sampleSum256 0 100 10 "alice" (by decide) (by decide)⟩

/-- C19. An empty filter contains nothing: for `size > 0` and `k > 0`, `Contains(item)` on
`NewBloom(size, k)` returns false. -/
theorem empty_contains_nothing (Sum256 : String → Digest) (size k : Nat) (item : String)
    (hsize : 0 < size) (hk : 0 < k) :
    Contains Sum256 (NewBloom size k) item = some (false, NewBloom size k) := by
  show Contains Sum256 ⟨some 0, size, k⟩ item = some (false, ⟨some 0, size, k⟩)
  rw [Contains_eq Sum256 0 size k item hsize]
  have e : (List.range k).all (fun i => Int.testBit 0 (position size (Sum256 item) i))
      = false := by
    rw [Bool.eq_false_iff]
    intro h
    have h0 := (List.all_eq_true.mp h) 0 (List.mem_range.mpr hk)
    have hz : Int.testBit 0 (position size (Sum256 item) 0) = false := Nat.zero_testBit _
    rw [hz] at h0
    exact Bool.noConfusion h0
  rw [e]

/-- Witness of C19: `Contains("alice")` on the fresh `NewBloom(100, 3)`. -/
theorem empty_contains_nothing_witness :
    0 < 100 ∧ 0 < 3
      ∧ Contains sampleSum256 (NewBloom 100 3) "alice" = some (false, NewBloom 100 3) :=
  ⟨by decide, by decide, empty_contains_nothing sampleSum256 100 3 "alice" (by decide) (by decide)⟩

end Bloomfilter

/-! ## Claims on the API-key lookup -/

namespace Main

theorem halve_eq (i j : Nat) (h : i + j < 2 ^ 64) :
    Bloomfilter.wrapUint (i + j) >>> 1 = (i + j) / 2 := by
  rw [Bloomfilter.wrapUint_of_lt _ h, Nat.shiftRight_eq_div_pow, pow_one]

theorem searchLoop_bounds {α : Type} [LinearOrder α] (a : List α) (x : α)
    (hlen : a.length < 2 ^ 63) (fuel : Nat) :
    ∀ i j : Nat, i ≤ j → j ≤ a.length → j - i ≤ fuel →
      ∃ r, searchLoop (fun i => (a[i]?).map (fun s => decide (x ≤ s))) fuel i j = some r
        ∧ r ≤ a.length := by
  induction fuel with
  | zero =>
    intro i j hij hj hf
    have hn : ¬ i < j := by omega
    exact ⟨i, by simp [searchLoop, hn], by omega⟩
  | succ fuel ih =>
    intro i j hij hj hf
    by_cases hlt : i < j
    · have hh := halve_eq i j (by omega)
      have hlo : i ≤ (i + j) / 2 := by omega
      have hhi : (i + j) / 2 < j := by omega
      have hb : (i + j) / 2 < a.length := by omega
      have hget : a[(i + j) / 2]? = some a[(i + j) / 2] := List.getElem?_eq_getElem hb
      unfold searchLoop
      simp only [hlt, if_true, hh, hget, Option.map_some', Option.bind_eq_bind, Option.some_bind]
      by_cases hx : x ≤ a[(i + j) / 2]
      · simp only [hx, decide_True, if_true]
        exact ih i ((i + j) / 2) hlo (by omega) (by omega)
      · simp only [hx, decide_False]
        exact ih ((i + j) / 2 + 1) j (by omega) hj (by omega)
    · exact ⟨i, by simp [searchLoop, hlt], by omega⟩

theorem searchLoop_sorted {α : Type} [LinearOrder α] (a : List α) (x : α)
    (hlen : a.length < 2 ^ 63)
    (hs : ∀ (m1 m2 : Nat) (h1 : m1 < a.length) (h2 : m2 < a.length), m1 ≤ m2 → a[m1] ≤ a[m2])
    (fuel : Nat) :
    ∀ i j : Nat, i ≤ j → j ≤ a.length → j - i ≤ fuel →
      (∀ (m : Nat) (hm : m < a.length), m < i → a[m] < x) →
      (∀ (m : Nat) (hm : m < a.length), j ≤ m → x ≤ a[m]) →
      ∃ r, searchLoop (fun i => (a[i]?).map (fun s => decide (x ≤ s))) fuel i j = some r
        ∧ r ≤ a.length
        ∧ (∀ (m : Nat) (hm : m < a.length), m < r → a[m] < x)
        ∧ (∀ (m : Nat) (hm : m < a.length), r ≤ m → x ≤ a[m]) := by
  induction fuel with
  | zero =>
    intro i j hij hj hf hP hQ
    have hn : ¬ i < j := by omega
    have e : j = i := by omega
    rw [e] at hQ
    exact ⟨i, by simp [searchLoop, hn], by omega, hP, hQ⟩
  | succ fuel ih =>
    intro i j hij hj hf hP hQ
    by_cases hlt : i < j
    · have hh := halve_eq i j (by omega)
      have hlo : i ≤ (i + j) / 2 := by omega
      have hhi : (i + j) / 2 < j := by omega
      have hb : (i + j) / 2 < a.length := by omega
      have hget : a[(i + j) / 2]? = some a[(i + j) / 2] := List.getElem?_eq_getElem hb
      unfold searchLoop
      simp only [hlt, if_true, hh, hget, Option.map_some', Option.bind_eq_bind, Option.some_bind]
      by_cases hx : x ≤ a[(i + j) / 2]
      · simp only [hx, decide_True, if_true]
        apply ih i ((i + j) / 2) hlo (by omega) (by omega) hP
        intro m hm hmh
        exact le_trans hx (hs _ m hb hm hmh)
      · simp only [hx, decide_False]
        apply ih ((i + j) / 2 + 1) j (by omega) hj (by omega) _ hQ
        intro m hm hmh
        exact lt_of_le_of_lt (hs m _ hm hb (by omega)) (lt_of_not_ge hx)
    · have e : j = i := by omega
      rw [e] at hQ
      exact ⟨i, by simp [searchLoop, hlt], by omega, hP, hQ⟩

theorem sorted_getElem_le {α : Type} [LinearOrder α] (a : List α)
    (hsorted : List.Sorted (fun s t => s ≤ t) a) :
    ∀ (m1 m2 : Nat) (h1 : m1 < a.length) (h2 : m2 < a.length), m1 ≤ m2 → a[m1] ≤ a[m2] := by
  intro m1 m2 h1 h2 hm
  rcases Nat.lt_or_eq_of_le hm with hlt | heq
  · exact (List.pairwise_iff_getElem.mp hsorted) m1 m2 h1 h2 hlt
  · subst heq
    exact le_refl _

/-- C12. The API-key lookup is exact on a sorted allowlist: on every slice of keys in
ascending order, `binarySearch(key, keys)` returns, and returns true exactly when
`key` is an element of the slice. -/
theorem binarySearch_sorted_exact {α : Type} [LinearOrder α] (key : α) (keys : List α)
    (hlen : keys.length < 2 ^ 63) (hsorted : List.Sorted (fun s t => s ≤ t) keys) :
    ∃ b : Bool, binarySearch key keys = some b ∧ (b = true ↔ key ∈ keys) := by
  have hs := sorted_getElem_le keys hsorted
  obtain ⟨r, hr, hrn, hP, hQ⟩ := searchLoop_sorted keys key hlen hs keys.length 0 keys.length
    (Nat.zero_le _) (le_refl _) (by omega) (fun m _ hm => absurd hm (Nat.not_lt_zero m))
    (fun m hm hge => absurd hm (by omega))
  have hsearch : SearchStrings keys key = some r := hr
  unfold binarySearch
  rw [hsearch]
  simp only [Option.bind_eq_bind, Option.some_bind]
  by_cases hrl : r < keys.length
  · have hget : keys[r]? = some keys[r] := List.getElem?_eq_getElem hrl
    simp only [hrl, if_true, hget, Option.some_bind]
    refine ⟨_, rfl, ?_⟩
    rw [decide_eq_true_iff]
    constructor
    · intro h
      rw [← h]
      exact List.getElem_mem hrl
    · intro h
      obtain ⟨m, hm, hmk⟩ := List.mem_iff_getElem.mp h
      have hrm : r ≤ m := by
        by_contra hc
        have := hP m hm (by omega)
        rw [hmk] at this
        exact lt_irrefl _ this
      have h1 : keys[r] ≤ key := by
        have := hs r m hrl hm hrm
        rw [hmk] at this
        exact this
      exact le_antisymm h1 (hQ r hrl (le_refl _))
  · simp only [hrl, if_false]
    refine ⟨false, rfl, ?_⟩
    constructor
    · intro h
      exact Bool.noConfusion h
    · intro h
      exfalso
      obtain ⟨m, hm, hmk⟩ := List.mem_iff_getElem.mp h
      have := hP m hm (by omega)
      rw [hmk] at this
      exact lt_irrefl _ this

/-- Witness of C12: looking up "k2" in the sorted keys "k1", "k2", "k7". -/
theorem binarySearch_sorted_exact_witness :
    ∃ b : Bool, binarySearch [107, 50] sampleKeys = some b
      ∧ (b = true ↔ [107, 50] ∈ sampleKeys) :=
  binarySearch_sorted_exact [107, 50] sampleKeys (by decide) (by decide)

/-- C20. The API-key lookup never admits an unknown key, sorted allowlist or not: on every
slice of keys `binarySearch(key, keys)` returns, every index read being in bounds,
and if it returns true then `key` is an element of the slice. -/
theorem binarySearch_sound {α : Type} [LinearOrder α] (key : α) (keys : List α)
    (hlen : keys.length < 2 ^ 63) :
    ∃ b : Bool, binarySearch key keys = some b ∧ (b = true → key ∈ keys) := by
  obtain ⟨r, hr, _⟩ := searchLoop_bounds keys key hlen keys.length 0 keys.length
    (Nat.zero_le _) (le_refl _) (by omega)
  have hsearch : SearchStrings keys key = some r := hr
  unfold binarySearch
  rw [hsearch]
  simp only [Option.bind_eq_bind, Option.some_bind]
  by_cases hrl : r < keys.length
  · have hget : keys[r]? = some keys[r] := List.getElem?_eq_getElem hrl
    simp only [hrl, if_true, hget, Option.some_bind]
    refine ⟨_, rfl, ?_⟩
    intro h
    rw [decide_eq_true_iff] at h
    rw [← h]
    exact List.getElem_mem hrl
  · simp only [hrl, if_false]
    exact ⟨false, rfl, fun h => Bool.noConfusion h⟩

/-- Witness of C20: looking up "k7" in the unsorted keys "k2", "k1", "k7". -/
theorem binarySearch_sound_witness :
    ∃ b : Bool, binarySearch [107, 55] unsortedKeys = some b
      ∧ (b = true → [107, 55] ∈ unsortedKeys) :=
  binarySearch_sound [107, 55] unsortedKeys (by decide)

end Main
